import Mathlib

/-!
# Verification of the byro membership-dues core (`byro/members/models.py`)

This file gives a shallow embedding of the dues/ledger core of the byro
association-management application and proves properties of it:

* calendar arithmetic in the style of `dateutil.relativedelta` (month
  stepping with day clamping, day stepping, `datetime.replace`),
* the ledger data model (`Transaction`, `Booking`) with one-step reversal,
* `Member._calc_balance`, `Member.create_balance`,
  `Member.statute_barred_debt`, `Member.adjust_balance`,
* `Membership.get_dues` and `Member.update_liabilites` (the reconciliation
  engine).

Conventions of the embedding:

* `datetime` values are modelled at date granularity (a `Date` record);
  all comparisons in the Python code under study compare value datetimes
  against dates, so nothing in the verified properties depends on
  sub-day resolution.
* Decimal amounts (two fractional digits) are modelled as integers
  (amounts in cents); Python `Decimal` equality/ordering/falsiness agree
  with the integer model.
* Python sets are modelled as lists used up to membership; `sorted()` is
  an insertion sort by the corresponding total order.
* Database querysets are list filters over the ledger state, in the order
  the rows are stored.
-/

namespace Byro

/-- A calendar date (`datetime.date`).  Fields are unconstrained; validity
(month in 1..12, day in range of the month) is a separate predicate. -/
structure Date where
  year : Int
  month : Nat
  day : Nat
deriving DecidableEq, Repr

/-- Gregorian leap-year rule. -/
def isLeap (y : Int) : Bool :=
  y % 4 == 0 && (y % 100 != 0 || y % 400 == 0)

/-- Number of days of month `m` of year `y`. -/
def daysInMonth (y : Int) (m : Nat) : Nat :=
  if m = 2 then (if isLeap y then 29 else 28)
  else if m = 4 ∨ m = 6 ∨ m = 9 ∨ m = 11 then 30
  else 31

/-- Index of a date's month on the time line (used for termination fuel
and for monotonicity of month stepping). -/
def monthIdx (d : Date) : Int := 12 * d.year + (d.month : Int)

/-- `relativedelta(months = k)` addition: shift by `k` months keeping the
day-of-month, clamping it to the length of the target month (dateutil
semantics). -/
def monthShift (d : Date) (k : Int) : Date :=
  let total : Int := (d.month : Int) - 1 + k
  let y : Int := d.year + total.ediv 12
  let m : Nat := (total.emod 12).toNat + 1
  ⟨y, m, min d.day (daysInMonth y m)⟩

/-- The day after `d`. -/
def nextDay (d : Date) : Date :=
  if d.day < daysInMonth d.year d.month then ⟨d.year, d.month, d.day + 1⟩
  else if d.month < 12 then ⟨d.year, d.month + 1, 1⟩
  else ⟨d.year + 1, 1, 1⟩

/-- The day before `d`. -/
def prevDay (d : Date) : Date :=
  if 1 < d.day then ⟨d.year, d.month, d.day - 1⟩
  else if 1 < d.month then ⟨d.year, d.month - 1, daysInMonth d.year (d.month - 1)⟩
  else ⟨d.year - 1, 12, 31⟩

/-- `d + n days`, `n : Nat`. -/
def addDaysNat : Date → Nat → Date
  | d, 0 => d
  | d, Nat.succ n => addDaysNat (nextDay d) n

/-- `d - n days`, `n : Nat`. -/
def subDaysNat : Date → Nat → Date
  | d, 0 => d
  | d, Nat.succ n => subDaysNat (prevDay d) n

/-- `d + k days`, `k : Int` (timedelta addition). -/
def addDaysInt (d : Date) (k : Int) : Date :=
  if 0 ≤ k then addDaysNat d k.toNat else subDaysNat d (-k).toNat

/-- A `dateutil.relativedelta` restricted to the relative fields used by
the code under study (`years`, `months`, `days`). -/
structure RelativeDelta where
  years : Int := 0
  months : Int := 0
  days : Int := 0
deriving DecidableEq, Repr

/-- Component-wise negation of a relativedelta. -/
def RelativeDelta.neg (a : RelativeDelta) : RelativeDelta :=
  ⟨-a.years, -a.months, -a.days⟩

/-- Component-wise subtraction of relativedeltas (dateutil `__sub__`). -/
def RelativeDelta.sub (a b : RelativeDelta) : RelativeDelta :=
  ⟨a.years - b.years, a.months - b.months, a.days - b.days⟩

/-- `date + relativedelta`: dateutil applies years and months together
(normalizing month overflow into years and clamping the day to the target
month), then adds the day offset. -/
def dateAddRD (d : Date) (rd : RelativeDelta) : Date :=
  addDaysInt (monthShift d (12 * rd.years + rd.months)) rd.days

/-- `datetime.replace(day = k)`: `none` models the `ValueError` raised for
a day that does not exist in the date's month. -/
def replaceDay (d : Date) (k : Nat) : Option Date :=
  if 1 ≤ k ∧ k ≤ daysInMonth d.year d.month then some ⟨d.year, d.month, k⟩
  else none

/-- `(d + relativedelta(day=1, months=1, days=-1))`: dateutil replaces the
day by 1, steps one month forward, then subtracts a day — the last day of
`d`'s month. -/
def lastDayOfMonth (d : Date) : Date :=
  addDaysInt (monthShift ⟨d.year, d.month, 1⟩ 1) (-1)

/-- Lexicographic order on dates (`datetime.date.__le__`). -/
def dateLE (a b : Date) : Prop :=
  a.year < b.year ∨ (a.year = b.year ∧
    (a.month < b.month ∨ (a.month = b.month ∧ a.day ≤ b.day)))

/-- Strict lexicographic order on dates. -/
def dateLt (a b : Date) : Prop :=
  a.year < b.year ∨ (a.year = b.year ∧
    (a.month < b.month ∨ (a.month = b.month ∧ a.day < b.day)))

instance (a b : Date) : Decidable (dateLE a b) := by
  unfold dateLE; exact inferInstance

instance (a b : Date) : Decidable (dateLt a b) := by
  unfold dateLt; exact inferInstance

/-- Boolean date comparison, for use inside query filters. -/
def dateLeB (a b : Date) : Bool := decide (dateLE a b)

/-- Boolean strict date comparison. -/
def dateLtB (a b : Date) : Bool := decide (dateLt a b)

/-- The later of two dates. -/
def dateMax (a b : Date) : Date := if dateLtB a b then b else a

/-- A date record denotes a real calendar date: month in 1..12 and day in
the range of that month. -/
def Date.Valid (d : Date) : Prop :=
  1 ≤ d.month ∧ d.month ≤ 12 ∧ 1 ≤ d.day ∧ d.day ≤ daysInMonth d.year d.month

theorem dateLE_refl (a : Date) : dateLE a a := by
  unfold dateLE; omega

theorem dateLE_trans {a b c : Date} (h1 : dateLE a b) (h2 : dateLE b c) :
    dateLE a c := by
  unfold dateLE at *; omega

theorem dateLE_total (a b : Date) : dateLE a b ∨ dateLE b a := by
  unfold dateLE; omega

theorem dateLt_of_not_le {a b : Date} (h : ¬ dateLE a b) : dateLt b a := by
  unfold dateLE at h; unfold dateLt; omega

theorem dateLE_of_lt {a b : Date} (h : dateLt a b) : dateLE a b := by
  unfold dateLt at h; unfold dateLE; omega

theorem date_trichotomy (a b : Date) : dateLt a b ∨ a = b ∨ dateLt b a := by
  obtain ⟨y1, m1, d1⟩ := a
  obtain ⟨y2, m2, d2⟩ := b
  simp only [dateLt, Date.mk.injEq]
  omega

/-- The order used by Python's `sorted()` on `(date, amount)` tuples. -/
def dueLE (x y : Date × Int) : Prop :=
  dateLt x.1 y.1 ∨ (x.1 = y.1 ∧ x.2 ≤ y.2)

instance : DecidableRel dueLE := fun x y => by
  unfold dueLE; exact inferInstance

instance : IsTotal (Date × Int) dueLE := by
  constructor
  intro x y
  rcases date_trichotomy x.1 y.1 with h | h | h
  · exact Or.inl (Or.inl h)
  · rcases Int.le_total x.2 y.2 with h2 | h2
    · exact Or.inl (Or.inr ⟨h, h2⟩)
    · exact Or.inr (Or.inr ⟨h.symm, h2⟩)
  · exact Or.inr (Or.inl h)

theorem dateLt_trans {a b c : Date} (h1 : dateLt a b) (h2 : dateLt b c) :
    dateLt a c := by
  unfold dateLt at *; omega

instance : IsTrans (Date × Int) dueLE := by
  constructor
  intro x y z h1 h2
  rcases h1 with h1 | ⟨h1, h1a⟩ <;> rcases h2 with h2 | ⟨h2, h2a⟩
  · exact Or.inl (dateLt_trans h1 h2)
  · exact Or.inl (h2 ▸ h1)
  · exact Or.inl (h1 ▸ h2)
  · exact Or.inr ⟨h1.trans h2, le_trans h1a h2a⟩

/-- Python `sorted()` over a set of `(date, amount)` pairs. -/
def sortDues (l : List (Date × Int)) : List (Date × Int) :=
  List.insertionSort dueLE l

/-! ## The ledger data model

`Transaction` and `Booking` (from `byro.bookkeeping.models`) as used by
`byro/members/models.py`: a transaction has a value datetime and an
optional `reversed_by` link (a transaction is active iff `reversed_by` is
null); a booking belongs to a transaction, optionally to a member, and
debits or credits an account. -/

/-- Ledger accounts; the members core only distinguishes the special
accounts `fees`, `fees_receivable` and `donations`. -/
inductive Account where
  | fees
  | fees_receivable
  | donations
  | other : Nat → Account
deriving DecidableEq, Repr

/-- A ledger transaction (row of `bookkeeping.Transaction`). -/
structure Tx where
  id : Nat
  value_datetime : Date
  reversed_by : Option Nat
deriving DecidableEq, Repr

/-- A ledger booking (row of `bookkeeping.Booking`): it debits or credits
one account (`t.debit(...)` / `t.credit(...)` each create a one-sided
booking). -/
structure Booking where
  txId : Nat
  memberId : Option Nat
  debit_account : Option Account
  credit_account : Option Account
  amount : Int
deriving DecidableEq, Repr

/-- The ledger state: the stored transactions and bookings, and the next
fresh transaction id. -/
structure Ledger where
  txs : List Tx
  bookings : List Booking
  nextId : Nat
deriving DecidableEq, Repr

/-- Look a transaction up by id (the `booking.transaction` join). -/
def Ledger.findTx (l : Ledger) (i : Nat) : Option Tx :=
  l.txs.find? (fun t => decide (t.id = i))

/-- Well-formedness of a ledger state: transaction ids are unique, and all
transaction ids and booking references are below the fresh-id counter. -/
def Ledger.WF (l : Ledger) : Prop :=
  (l.txs.map (fun t => t.id)).Nodup ∧
  (∀ t ∈ l.txs, t.id < l.nextId) ∧
  (∀ b ∈ l.bookings, b.txId < l.nextId)

instance (l : Ledger) : Decidable l.WF := by
  unfold Ledger.WF; exact inferInstance

/-- Is the transaction owning id `i` present and active
(`reversed_by__isnull=True` after the `booking.transaction` join)? -/
def txActive (l : Ledger) (i : Nat) : Bool :=
  match l.findTx i with
  | some t => decide (t.reversed_by = none)
  | none => false

/-- Value date of a booking's transaction
(`b.transaction.value_datetime.date()`); a dangling reference yields a
placeholder, which never matters because such bookings fail every
active-transaction filter. -/
def bookingDate (l : Ledger) (b : Booking) : Date :=
  match l.findTx b.txId with
  | some t => t.value_datetime
  | none => ⟨0, 1, 1⟩

/-- The `(value date, amount)` key of a booking, as used by the
reconciliation dictionary. -/
def bookingKey (l : Ledger) (b : Booking) : Date × Int :=
  (bookingDate l b, b.amount)

/-- Modelled from the spec: `Transaction.reverse` lives in
`byro.bookkeeping` and is not under `src/`.  Per the spec a transaction is
reversed — never edited or deleted — by creating a linked reversing
transaction; `reversed_by` is set exactly once and a transaction is active
iff it is null; the spec's design notes model a transaction as the tagged
state `Active` or `Reversed{by: TransactionId}` with a one-step link.
Reversing an absent or already-reversed transaction changes nothing. -/
def Ledger.reverse (l : Ledger) (tid : Nat) : Ledger :=
  match l.findTx tid with
  | none => l
  | some t =>
    match t.reversed_by with
    | some _ => l
    | none =>
      { txs := l.txs.map (fun u => if u.id = tid then { u with reversed_by := some l.nextId } else u)
          ++ [{ id := l.nextId, value_datetime := t.value_datetime, reversed_by := none }],
        bookings := l.bookings,
        nextId := l.nextId + 1 }

/-- Step 5 of `update_liabilites`: create a transaction dated at the due
date with a credit booking on the fees account and a debit booking on the
fees-receivable account, both tagged with the member. -/
def Ledger.createDue (l : Ledger) (m : Nat) (date : Date) (amount : Int) : Ledger :=
  { txs := l.txs ++ [{ id := l.nextId, value_datetime := date, reversed_by := none }],
    bookings := l.bookings ++
      [⟨l.nextId, some m, none, some Account.fees, amount⟩,
       ⟨l.nextId, some m, some Account.fees_receivable, none, amount⟩],
    nextId := l.nextId + 1 }

/-! ## Balance computation (`Member._calc_balance` and friends) -/

/-- `Member._calc_balance`: liability is the sum of the member's bookings
debiting the fees-receivable account with transaction value datetime at
most `liability_cutoff` (defaulting to now) and — when given — at least
`liability_start`; asset is the symmetric sum over bookings crediting the
fees-receivable account with its own cutoff/start; the result is
`asset - liability`.  There is no filter on the reversal state of the
owning transaction. -/
def calc_balance (l : Ledger) (m : Nat)
    (liability_cutoff asset_cutoff liability_start asset_start : Option Date)
    (_now : Date) : Int :=
  let debits := l.bookings.filter (fun b =>
    decide (b.memberId = some m) &&
    decide (b.debit_account = some Account.fees_receivable) &&
    (match l.findTx b.txId with
     | some t =>
        dateLeB t.value_datetime (liability_cutoff.getD _now) &&
        (match liability_start with
         | some s => dateLeB s t.value_datetime
         | none => true)
     | none => false))
  let credits := l.bookings.filter (fun b =>
    decide (b.memberId = some m) &&
    decide (b.credit_account = some Account.fees_receivable) &&
    (match l.findTx b.txId with
     | some t =>
        dateLeB t.value_datetime (asset_cutoff.getD _now) &&
        (match asset_start with
         | some s => dateLeB s t.value_datetime
         | none => true)
     | none => false))
  (credits.map (fun b => b.amount)).sum - (debits.map (fun b => b.amount)).sum

/-- The balance formula exactly as the claim states it: credits up to the
cutoff minus debits up to the cutoff, **over active bookings only**
(bookings of reversed transactions never contribute). -/
def balanceSpecActive (l : Ledger) (m : Nat) (T : Date) : Int :=
  ((l.bookings.filter (fun b =>
      decide (b.memberId = some m) &&
      decide (b.credit_account = some Account.fees_receivable) &&
      txActive l b.txId &&
      dateLeB (bookingDate l b) T)).map (fun b => b.amount)).sum -
  ((l.bookings.filter (fun b =>
      decide (b.memberId = some m) &&
      decide (b.debit_account = some Account.fees_receivable) &&
      txActive l b.txId &&
      dateLeB (bookingDate l b) T)).map (fun b => b.amount)).sum

/-- The balance formula with the active-only restriction dropped: credits
up to the cutoff minus debits up to the cutoff over **all** stored
bookings of the member, regardless of reversal state. -/
def balanceSpecAll (l : Ledger) (m : Nat) (T : Date) : Int :=
  ((l.bookings.filter (fun b =>
      decide (b.memberId = some m) &&
      decide (b.credit_account = some Account.fees_receivable) &&
      (l.findTx b.txId).isSome &&
      dateLeB (bookingDate l b) T)).map (fun b => b.amount)).sum -
  ((l.bookings.filter (fun b =>
      decide (b.memberId = some m) &&
      decide (b.debit_account = some Account.fees_receivable) &&
      (l.findTx b.txId).isSome &&
      dateLeB (bookingDate l b) T)).map (fun b => b.amount)).sum

/-- A `MemberBalance` snapshot row, restricted to the fields the overlap
check and the claims use (`member` is implicit in the list of snapshots
passed to `create_balance`). -/
structure MemberBalance where
  start : Date
  stop : Date
  amount : Int
deriving DecidableEq, Repr

/-- True overlap of the closed intervals `[s1, e1]` and `[s2, e2]`. -/
def intervalsOverlap (s1 e1 s2 e2 : Date) : Prop :=
  dateLE s1 e2 ∧ dateLE s2 e1

instance (s1 e1 s2 e2 : Date) : Decidable (intervalsOverlap s1 e1 s2 e2) := by
  unfold intervalsOverlap; exact inferInstance

/-- `Member.create_balance(start, end)`: rejects (raises) when some
existing snapshot `e` of the member satisfies
`e.start ≤ start ≤ e.end` or `e.start ≤ end ≤ e.end`; otherwise computes
the windowed balance and returns the snapshot (`none` when the amount is
zero and `create_if_zero` is false).  `Except.error ()` models the raised
exception; `commit` only controls persistence of the returned row. -/
def create_balance (l : Ledger) (m : Nat) (balances : List MemberBalance)
    (start stop : Date) (_now : Date) (commit create_if_zero : Bool) :
    Except Unit (Option MemberBalance) :=
  if balances ≠ [] ∧
      (balances.any (fun e =>
        (dateLeB e.start start && dateLeB start e.stop) ||
        (dateLeB e.start stop && dateLeB stop e.stop))) then
    Except.error ()
  else
    let amount := calc_balance l m (some stop) (some stop) (some start) (some start) _now
    if amount = 0 ∧ create_if_zero = false then Except.ok none
    else Except.ok (some ⟨start, stop, amount⟩)

/-! ## Statute-barred debt (`Member.statute_barred_debt`) -/

/-- The cutoff date computed by `statute_barred_debt`:
`limit = relativedelta(months=liability_interval) - future_limit`, then
`now().replace(month=12, day=31) - limit - relativedelta(years=1)`. -/
def statuteCutoff (_now : Date) (liability_interval : Nat)
    (future_limit : Option RelativeDelta) : Date :=
  let fl := future_limit.getD ⟨0, 0, 0⟩
  let limit := RelativeDelta.sub ⟨0, (liability_interval : Int), 0⟩ fl
  dateAddRD (dateAddRD ⟨_now.year, 12, 31⟩ limit.neg) ⟨-1, 0, 0⟩

/-- The cutoff as the claim words it: December 31 of the current year,
minus `liability_interval` months, minus one year, minus `future_limit`
(each subtraction applied in turn). -/
def statuteCutoffClaim (_now : Date) (liability_interval : Nat)
    (fl : RelativeDelta) : Date :=
  dateAddRD (dateAddRD (dateAddRD ⟨_now.year, 12, 31⟩
    ⟨0, -(liability_interval : Int), 0⟩) ⟨-1, 0, 0⟩) fl.neg

/-- `Member.statute_barred_debt`: the liability-only balance as of the
computed cutoff, floored at zero.  (`_calc_balance` is called with the
cutoff as `liability_cutoff` only, so the asset side keeps its `now`
default.) -/
def statute_barred_debt (l : Ledger) (m : Nat) (_now : Date)
    (liability_interval : Nat) (future_limit : Option RelativeDelta) : Int :=
  max 0 (-(calc_balance l m
    (some (statuteCutoff _now liability_interval future_limit))
    none none none _now))

/-! ## `Member.adjust_balance` -/

/-- `Member.adjust_balance(user_or_context, memo, amount, from_, to_,
value_datetime)`: returns `False` (and writes nothing) for a falsy amount;
otherwise a negative amount is replaced by its opposite with the two
accounts swapped, a transaction is created at `value_datetime`, the `to_`
account is debited and the `from_` account credited, the member tag being
attached to whichever side is the fees-receivable account; returns
`True`. -/
def adjust_balance (l : Ledger) (m : Nat) (amount : Int)
    (from_ to_ : Account) (value_datetime _now : Date) : Bool × Ledger :=
  if amount = 0 then (false, l)
  else
    let amt := if amount < 0 then -amount else amount
    let f := if amount < 0 then to_ else from_
    let t := if amount < 0 then from_ else to_
    let from_member : Option Nat := if f = Account.fees_receivable then some m else none
    let to_member : Option Nat := if t = Account.fees_receivable then some m else none
    (true,
      { txs := l.txs ++ [{ id := l.nextId, value_datetime := value_datetime, reversed_by := none }],
        bookings := l.bookings ++
          [⟨l.nextId, to_member, some t, none, amt⟩,
           ⟨l.nextId, from_member, none, some f, amt⟩],
        nextId := l.nextId + 1 })

/-! ## The dues schedule generator (`Membership.get_dues`) -/

/-- A `Membership` row: `start`, optional `end`, fee `amount` (cents) and
payment `interval` in months (source choices: 1, 3, 6, 12). -/
structure Membership where
  start : Date
  stop : Option Date
  amount : Int
  interval : Nat
deriving DecidableEq, Repr

/-- The `while date <= end` loop of `get_dues`, stepping by
`relativedelta(months=interval)`.  The loop is driven by fuel; `get_dues`
passes enough fuel for every positive interval (for `interval = 0` the
Python loop would not terminate at all). -/
def duesLoop (amount : Int) (interval : Nat) (stop : Date) :
    Date → Nat → List (Date × Int)
  | _, 0 => []
  | d, Nat.succ fuel =>
    if dateLeB d stop then
      (d, amount) :: duesLoop amount interval stop (monthShift d interval) fuel
    else []

/-- Fuel bound for `duesLoop`: one more than the month distance from
`start` to `stop`; every loop step advances the month index by
`interval ≥ 1`. -/
def duesFuel (start stop : Date) : Nat :=
  (monthIdx stop + 1 - monthIdx start).toNat

/-- `Membership.get_dues(_now, _from)`: clip `start` to `_from`; an unset
`end` becomes `_now` with the (clipped) start's day-of-month, falling back
to the last day of `_now`'s month when that day raises `ValueError`; then
emit `(date, amount)` every `interval` months from `start` while
`date ≤ end`.  Returns the `(start, end)` range and the due set. -/
def get_dues (ms : Membership) (_now : Date) (_from : Option Date) :
    (Date × Date) × List (Date × Int) :=
  let start := match _from with
    | some f => if dateLtB ms.start f then f else ms.start
    | none => ms.start
  let stop := match ms.stop with
    | some e => e
    | none =>
      match replaceDay _now start.day with
      | some d => d
      | none => lastDayOfMonth _now
  ((start, stop), duesLoop ms.amount ms.interval stop start (duesFuel start stop))

/-- The dues window exactly as the claim words it: the start is
`max(membership.start, from)`; an unset end is replaced by the date in
`now`'s year and month with **`membership.start`'s** day-of-month, falling
back to the last day of `now`'s month. -/
def duesRangeClaim (ms : Membership) (_now : Date) (_from : Option Date) :
    Date × Date :=
  let range_start := match _from with
    | some f => dateMax ms.start f
    | none => ms.start
  let range_end := match ms.stop with
    | some e => e
    | none =>
      match replaceDay _now ms.start.day with
      | some d => d
      | none => lastDayOfMonth _now
  (range_start, range_end)

/-- The dues window as the code actually computes it: as
`duesRangeClaim`, except that the implicit end uses the day-of-month of
the **effective** range start `max(membership.start, from)` rather than of
`membership.start`. -/
def duesRangeAmended (ms : Membership) (_now : Date) (_from : Option Date) :
    Date × Date :=
  let range_start := match _from with
    | some f => dateMax ms.start f
    | none => ms.start
  let range_end := match ms.stop with
    | some e => e
    | none =>
      match replaceDay _now range_start.day with
      | some d => d
      | none => lastDayOfMonth _now
  (range_start, range_end)

/-! ## The reconciliation engine (`Member.update_liabilites`) -/

/-- Process-wide configuration (`Configuration.get_solo()`), passed in
explicitly: the optional global accounting start date and the statute
liability interval in months. -/
structure Config where
  accounting_start : Option Date
  liability_interval : Nat
deriving DecidableEq, Repr

/-- Step 1 of `update_liabilites`: iterate the member's memberships,
skipping those with a falsy amount, collecting each `get_dues` range and
the union of the due sets. -/
def step1 (mss : List Membership) (_now : Date) (_from : Option Date) :
    List (Date × Date) × List (Date × Int) :=
  match mss with
  | [] => ([], [])
  | ms :: rest =>
    if ms.amount = 0 then step1 rest _now _from
    else
      let rd := get_dues ms _now _from
      let acc := step1 rest _now _from
      (rd.1 :: acc.1, rd.2 ∪ acc.2)

/-- Does date `d` fall in at least one of the `[start, end]` ranges? -/
def inRangesB (ranges : List (Date × Date)) (d : Date) : Bool :=
  ranges.any (fun r => dateLeB r.1 d && dateLeB d r.2)

/-- `_from`-filter of the due queries: when the accounting start is set,
only bookings whose transaction value date is at least it. -/
def fromOKB (_from : Option Date) (d : Date) : Bool :=
  match _from with
  | some f => dateLeB f d
  | none => true

/-- The filter shared by the step-2 and step-6 queries: the booking is the
member's, credits the fees account, its transaction exists, is not
reversed, and satisfies the accounting-start bound. -/
def dueScope (l : Ledger) (m : Nat) (_from : Option Date) (b : Booking) : Bool :=
  decide (b.memberId = some m) &&
  decide (b.credit_account = some Account.fees) &&
  txActive l b.txId &&
  fromOKB _from (bookingDate l b)

/-- Step 2 of `update_liabilites` (`dues_qs`): the in-scope due bookings,
restricted — when any membership range exists — to the union of the
membership ranges. -/
def duesQs (l : Ledger) (m : Nat) (_from : Option Date)
    (ranges : List (Date × Date)) : List Booking :=
  l.bookings.filter (fun b =>
    dueScope l m _from b && (ranges.isEmpty || inRangesB ranges (bookingDate l b)))

/-- Step 6 query (`stray_liabilities_qs`): the same scope with the range
filter excluded instead of applied (no exclusion when there are no
ranges). -/
def strayQs (l : Ledger) (m : Nat) (_from : Option Date)
    (ranges : List (Date × Date)) : List Booking :=
  l.bookings.filter (fun b =>
    dueScope l m _from b && (ranges.isEmpty || !inRangesB ranges (bookingDate l b)))

/-- The `dues_in_db` dictionary lookup: the Python dict comprehension maps
each `(date, amount)` key to the **last** queryset row with that key. -/
def duesDict (l0 : Ledger) (q : List Booking) (k : Date × Int) : Option Booking :=
  q.reverse.find? (fun b => decide (bookingKey l0 b = k))

/-- Step 4: iterate the sorted wrong dues, reversing the transaction of
the dictionary booking of each; returns the new ledger and the reversed
transaction ids in order. -/
def step4fold (l0 : Ledger) (q : List Booking) :
    List (Date × Int) → Ledger → Ledger × List Nat
  | [], l => (l, [])
  | k :: ks, l =>
    match duesDict l0 q k with
    | some b =>
      let r := step4fold l0 q ks (l.reverse b.txId)
      (r.1, b.txId :: r.2)
    | none => step4fold l0 q ks l

/-- Step 5: iterate the sorted missing dues, creating a due posting for
each. -/
def step5fold (m : Nat) : List (Date × Int) → Ledger → Ledger
  | [], l => l
  | k :: ks, l => step5fold m ks (l.createDue m k.1 k.2)

/-- Step 6: reverse the transaction of every stray booking, in queryset
order. -/
def step6fold : List Booking → Ledger → Ledger
  | [], l => l
  | b :: bs, l => step6fold bs (l.reverse b.txId)

/-- The observable outcome of one `update_liabilites` run: the wrong and
missing due sets (in the sorted processing order), the performed writes
(reversed transaction ids of step 4, created dues of step 5, reversed
stray transaction ids of step 6) and the final ledger. -/
structure ReconRun where
  wrong : List (Date × Int)
  missing : List (Date × Int)
  reversed : List Nat
  created : List (Date × Int)
  strayReversed : List Nat
  ledger : Ledger
deriving DecidableEq, Repr

/-- `Member.update_liabilites`, steps 1–6 (the source comments number the
comparison as step 3 and the stray cancellation as step 6). -/
def update_liabilites (m : Nat) (mss : List Membership) (l : Ledger)
    (_now : Date) (config : Config) : ReconRun :=
  let _from := config.accounting_start
  let sr := step1 mss _now _from
  let membership_ranges := sr.1
  let dues := sr.2
  let dues_in_db := duesQs l m _from membership_ranges
  let dues_in_db_as_set := (dues_in_db.map (bookingKey l)).dedup
  let wrong_dues_in_db := sortDues (dues_in_db_as_set.filter (fun k => decide (k ∉ dues)))
  let missing_dues := sortDues (dues.filter (fun k => decide (k ∉ dues_in_db_as_set)))
  let s4 := step4fold l dues_in_db wrong_dues_in_db l
  let l2 := step5fold m missing_dues s4.1
  let strays := strayQs l2 m _from membership_ranges
  let l3 := step6fold strays l2
  { wrong := wrong_dues_in_db,
    missing := missing_dues,
    reversed := s4.2,
    created := missing_dues,
    strayReversed := strays.map (fun b => b.txId),
    ledger := l3 }

/-- The ledger produced by one `update_liabilites` run (the write pipeline
of steps 4–6), as a function of the step-1 output. -/
def recon1 (m : Nat) (F : Option Date) (ranges : List (Date × Date))
    (dues : List (Date × Int)) (l0 : Ledger) : Ledger :=
  let q0 := duesQs l0 m F ranges
  let k0 := (q0.map (bookingKey l0)).dedup
  let wrongS := sortDues (k0.filter (fun k => decide (k ∉ dues)))
  let missingS := sortDues (dues.filter (fun k => decide (k ∉ k0)))
  let l1 := (step4fold l0 q0 wrongS l0).1
  let l2 := step5fold m missingS l1
  step6fold (strayQs l2 m F ranges) l2

/-! ## Generic lemmas: lists, lookups -/

theorem findq_append {α} (p : α → Bool) (l1 l2 : List α) :
    (l1 ++ l2).find? p = ((l1.find? p).or (l2.find? p)) := by
  induction l1 with
  | nil => simp
  | cons a l ih => by_cases h : p a <;> simp [List.find?_cons, h, ih]

theorem mem_sortDues {k : Date × Int} {l : List (Date × Int)} :
    k ∈ sortDues l ↔ k ∈ l :=
  (List.perm_insertionSort dueLE l).mem_iff

/-! ## Lemmas about the ledger operations -/

theorem findTx_none_of_ge {l : Ledger} (hwf : l.WF) {i : Nat}
    (h : l.nextId ≤ i) : l.findTx i = none := by
  unfold Ledger.findTx
  rw [List.find?_eq_none]
  intro t ht
  have := hwf.2.1 t ht
  simp only [decide_eq_true_eq]
  omega

theorem findTx_map_pres (f : Tx → Tx) (hf : ∀ t, (f t).id = t.id)
    (ts : List Tx) (i : Nat) :
    (ts.map f).find? (fun t => decide (t.id = i)) =
      (ts.find? (fun t => decide (t.id = i))).map f := by
  induction ts with
  | nil => rfl
  | cons t ts ih =>
    by_cases h : t.id = i <;> simp [List.find?_cons, hf, h, ih]

theorem reverse_of_findTx_none {l : Ledger} {tid : Nat} (h : l.findTx tid = none) :
    l.reverse tid = l := by
  unfold Ledger.reverse
  rw [h]

theorem reverse_of_reversed {l : Ledger} {tid : Nat} {t : Tx} {r : Nat}
    (h : l.findTx tid = some t) (hr : t.reversed_by = some r) :
    l.reverse tid = l := by
  unfold Ledger.reverse
  simp only [h, hr]

theorem reverse_of_active {l : Ledger} {tid : Nat} {t : Tx}
    (h : l.findTx tid = some t) (hr : t.reversed_by = none) :
    l.reverse tid =
      ⟨l.txs.map (fun u => if u.id = tid then { u with reversed_by := some l.nextId } else u)
         ++ [⟨l.nextId, t.value_datetime, none⟩],
       l.bookings, l.nextId + 1⟩ := by
  unfold Ledger.reverse
  simp only [h, hr]

theorem reverse_bookings (l : Ledger) (tid : Nat) :
    (l.reverse tid).bookings = l.bookings := by
  cases h : l.findTx tid with
  | none => rw [reverse_of_findTx_none h]
  | some t =>
    cases hr : t.reversed_by with
    | some r => rw [reverse_of_reversed h hr]
    | none => rw [reverse_of_active h hr]

theorem reverse_nextId_ge (l : Ledger) (tid : Nat) :
    l.nextId ≤ (l.reverse tid).nextId := by
  cases h : l.findTx tid with
  | none => rw [reverse_of_findTx_none h]
  | some t =>
    cases hr : t.reversed_by with
    | some r => rw [reverse_of_reversed h hr]
    | none => rw [reverse_of_active h hr]; simp

theorem reverse_findTx_self {l : Ledger} {tid : Nat} {t : Tx}
    (h : l.findTx tid = some t) (hr : t.reversed_by = none) :
    (l.reverse tid).findTx tid = some { t with reversed_by := some l.nextId } := by
  have htid : t.id = tid := by
    have := List.find?_some h
    simpa using this
  rw [reverse_of_active h hr]
  unfold Ledger.findTx
  simp only
  rw [findq_append, findTx_map_pres (fun u => if u.id = tid then { u with reversed_by := some l.nextId } else u) (by intro u; by_cases hu : u.id = tid <;> simp [hu])]
  unfold Ledger.findTx at h
  rw [h]
  simp [htid]

theorem reverse_findTx_of_ne {l : Ledger} {tid i : Nat}
    (hne : i ≠ tid) (hlt : i < l.nextId) :
    (l.reverse tid).findTx i = l.findTx i := by
  cases h : l.findTx tid with
  | none => rw [reverse_of_findTx_none h]
  | some t =>
    cases hr : t.reversed_by with
    | some r => rw [reverse_of_reversed h hr]
    | none =>
      rw [reverse_of_active h hr]
      unfold Ledger.findTx
      simp only
      rw [findq_append, findTx_map_pres (fun u => if u.id = tid then { u with reversed_by := some l.nextId } else u) (by intro u; by_cases hu : u.id = tid <;> simp [hu])]
      cases hfi : l.txs.find? (fun t => decide (t.id = i)) with
      | some u =>
        have hui : u.id = i := by
          have := List.find?_some hfi
          simpa using this
        simp [hui, hne]
      | none =>
        have hni : ¬ ((l.nextId : Nat) = i) := by omega
        simp [List.find?, hni]

theorem txActive_reverse_self (l : Ledger) (tid : Nat) :
    txActive (l.reverse tid) tid = false := by
  cases h : l.findTx tid with
  | none =>
    rw [reverse_of_findTx_none h]
    unfold txActive
    rw [h]
  | some t =>
    cases hr : t.reversed_by with
    | some r =>
      rw [reverse_of_reversed h hr]
      unfold txActive
      rw [h]
      simp [hr]
    | none =>
      unfold txActive
      rw [reverse_findTx_self h hr]
      simp

theorem txActive_reverse_of_ne {l : Ledger} {tid i : Nat}
    (hne : i ≠ tid) (hlt : i < l.nextId) :
    txActive (l.reverse tid) i = txActive l i := by
  unfold txActive
  rw [reverse_findTx_of_ne hne hlt]

theorem bookingDate_reverse {l : Ledger} {tid : Nat} {b : Booking}
    (hlt : b.txId < l.nextId) :
    bookingDate (l.reverse tid) b = bookingDate l b := by
  by_cases he : b.txId = tid
  · cases h : l.findTx tid with
    | none => rw [reverse_of_findTx_none h]
    | some t =>
      cases hr : t.reversed_by with
      | some r => rw [reverse_of_reversed h hr]
      | none =>
        unfold bookingDate
        rw [he, reverse_findTx_self h hr, h]
  · unfold bookingDate
    rw [reverse_findTx_of_ne he hlt]

theorem WF_reverse {l : Ledger} (hwf : l.WF) (tid : Nat) :
    (l.reverse tid).WF := by
  obtain ⟨h1, h2, h3⟩ := hwf
  cases h : l.findTx tid with
  | none => rw [reverse_of_findTx_none h]; exact ⟨h1, h2, h3⟩
  | some t =>
    cases hr : t.reversed_by with
    | some r => rw [reverse_of_reversed h hr]; exact ⟨h1, h2, h3⟩
    | none =>
      rw [reverse_of_active h hr]
      refine ⟨?_, ?_, ?_⟩
      · simp only [List.map_append, List.map_map, List.map_cons, List.map_nil]
        have hmap : l.txs.map ((fun t => t.id) ∘ (fun u => if u.id = tid then { u with reversed_by := some l.nextId } else u)) = l.txs.map (fun t => t.id) := by
          apply List.map_congr_left
          intro u _
          by_cases hu : u.id = tid <;> simp [hu]
        rw [hmap]
        rw [List.nodup_append]
        refine ⟨h1, List.nodup_singleton _, ?_⟩
        intro a ha hb
        simp only [List.mem_singleton] at hb
        subst hb
        simp only [List.mem_map] at ha
        obtain ⟨t2, ht2, hid⟩ := ha
        have := h2 t2 ht2
        omega
      · intro t2 ht2
        simp only [List.mem_append, List.mem_map, List.mem_singleton] at ht2
        rcases ht2 with ⟨t3, ht3, rfl⟩ | rfl
        · have := h2 t3 ht3
          by_cases hu : t3.id = tid
          · simp only [if_pos hu]
            show t3.id < l.nextId + 1
            omega
          · simp only [if_neg hu]
            show t3.id < l.nextId + 1
            omega
        · show l.nextId < l.nextId + 1
          omega
      · intro b hb
        have := h3 b hb
        show b.txId < l.nextId + 1
        omega

theorem createDue_bookings (l : Ledger) (m : Nat) (d : Date) (a : Int) :
    (l.createDue m d a).bookings = l.bookings ++
      [⟨l.nextId, some m, none, some Account.fees, a⟩,
       ⟨l.nextId, some m, some Account.fees_receivable, none, a⟩] := rfl

theorem createDue_nextId (l : Ledger) (m : Nat) (d : Date) (a : Int) :
    (l.createDue m d a).nextId = l.nextId + 1 := rfl

theorem createDue_findTx_old {l : Ledger} {i : Nat} (m : Nat) (d : Date) (a : Int)
    (hlt : i < l.nextId) :
    (l.createDue m d a).findTx i = l.findTx i := by
  unfold Ledger.createDue Ledger.findTx
  simp only
  rw [findq_append]
  cases hfi : l.txs.find? (fun t => decide (t.id = i)) with
  | some u => simp
  | none =>
    have : ¬ ((l.nextId : Nat) = i) := by omega
    simp [List.find?, this]

theorem createDue_findTx_new {l : Ledger} (hwf : l.WF) (m : Nat) (d : Date) (a : Int) :
    (l.createDue m d a).findTx l.nextId =
      some ⟨l.nextId, d, none⟩ := by
  unfold Ledger.createDue Ledger.findTx
  simp only
  rw [findq_append]
  have hn : l.txs.find? (fun t => decide (t.id = l.nextId)) = none := by
    have := findTx_none_of_ge hwf (le_refl l.nextId)
    unfold Ledger.findTx at this
    exact this
  rw [hn]
  simp [List.find?]

theorem txActive_createDue_old {l : Ledger} {i : Nat} (m : Nat) (d : Date) (a : Int)
    (hlt : i < l.nextId) :
    txActive (l.createDue m d a) i = txActive l i := by
  unfold txActive
  rw [createDue_findTx_old m d a hlt]

theorem bookingDate_createDue_old {l : Ledger} {b : Booking} (m : Nat) (d : Date) (a : Int)
    (hlt : b.txId < l.nextId) :
    bookingDate (l.createDue m d a) b = bookingDate l b := by
  unfold bookingDate
  rw [createDue_findTx_old m d a hlt]

theorem WF_createDue {l : Ledger} (hwf : l.WF) (m : Nat) (d : Date) (a : Int) :
    (l.createDue m d a).WF := by
  obtain ⟨h1, h2, h3⟩ := hwf
  unfold Ledger.createDue
  refine ⟨?_, ?_, ?_⟩
  · simp only [List.map_append, List.map_cons, List.map_nil]
    rw [List.nodup_append]
    refine ⟨h1, List.nodup_singleton _, ?_⟩
    intro a2 ha hb
    simp only [List.mem_singleton] at hb
    subst hb
    simp only [List.mem_map] at ha
    obtain ⟨t2, ht2, hid⟩ := ha
    have := h2 t2 ht2
    omega
  · intro t2 ht2
    simp only [List.mem_append, List.mem_singleton] at ht2
    rcases ht2 with ht2 | rfl
    · have := h2 t2 ht2
      show t2.id < l.nextId + 1
      omega
    · show l.nextId < l.nextId + 1
      omega
  · intro b hb
    simp only [List.mem_append, List.mem_cons, List.not_mem_nil, or_false] at hb
    rcases hb with hb | rfl | rfl
    · have := h3 b hb
      show b.txId < l.nextId + 1
      omega
    · show l.nextId < l.nextId + 1
      omega
    · show l.nextId < l.nextId + 1
      omega

/-! ## Lemmas about the scope predicate and the queries -/

theorem dueScope_iff {l : Ledger} {m : Nat} {F : Option Date} {b : Booking} :
    dueScope l m F b = true ↔
      b.memberId = some m ∧ b.credit_account = some Account.fees ∧
      txActive l b.txId = true ∧ fromOKB F (bookingDate l b) = true := by
  unfold dueScope
  simp [Bool.and_eq_true, and_assoc]

theorem dueScope_congr {l l2 : Ledger} {m : Nat} {F : Option Date} {b : Booking}
    (hact : txActive l2 b.txId = txActive l b.txId)
    (hdate : bookingDate l2 b = bookingDate l b) :
    dueScope l2 m F b = dueScope l m F b := by
  unfold dueScope
  rw [hact, hdate]

theorem mem_duesQs {l : Ledger} {m : Nat} {F : Option Date}
    {ranges : List (Date × Date)} {b : Booking} :
    b ∈ duesQs l m F ranges ↔
      b ∈ l.bookings ∧ dueScope l m F b = true ∧
      (ranges.isEmpty || inRangesB ranges (bookingDate l b)) = true := by
  unfold duesQs
  rw [List.mem_filter]
  simp [Bool.and_eq_true, and_assoc]

theorem mem_strayQs {l : Ledger} {m : Nat} {F : Option Date}
    {ranges : List (Date × Date)} {b : Booking} :
    b ∈ strayQs l m F ranges ↔
      b ∈ l.bookings ∧ dueScope l m F b = true ∧
      (ranges.isEmpty || !inRangesB ranges (bookingDate l b)) = true := by
  unfold strayQs
  rw [List.mem_filter]
  simp [Bool.and_eq_true, and_assoc]

theorem dueScope_active {l : Ledger} {m : Nat} {F : Option Date} {b : Booking}
    (h : dueScope l m F b = true) : txActive l b.txId = true :=
  (dueScope_iff.mp h).2.2.1

theorem duesDict_of_mem {l0 : Ledger} {q : List Booking} {k : Date × Int}
    (h : ∃ b ∈ q, bookingKey l0 b = k) :
    ∃ b, duesDict l0 q k = some b ∧ b ∈ q ∧ bookingKey l0 b = k := by
  obtain ⟨b, hb, hk⟩ := h
  unfold duesDict
  cases hf : q.reverse.find? (fun b => decide (bookingKey l0 b = k)) with
  | none =>
    rw [List.find?_eq_none] at hf
    exact absurd (by simpa using hk) (by simpa using hf b (List.mem_reverse.mpr hb))
  | some b2 =>
    refine ⟨b2, rfl, ?_, ?_⟩
    · exact List.mem_reverse.mp (List.mem_of_find?_eq_some hf)
    · have := List.find?_some hf
      simpa using this

/-! ## Lemmas about the step 4–6 folds -/

theorem step4_bookings (l0 : Ledger) (q : List Booking) (ks : List (Date × Int)) (l : Ledger) :
    (step4fold l0 q ks l).1.bookings = l.bookings := by
  induction ks generalizing l with
  | nil => rfl
  | cons k ks ih =>
    unfold step4fold
    cases hd : duesDict l0 q k with
    | none => exact ih l
    | some b => rw [ih (l.reverse b.txId), reverse_bookings]

theorem step4_nextId_ge (l0 : Ledger) (q : List Booking) (ks : List (Date × Int)) (l : Ledger) :
    l.nextId ≤ (step4fold l0 q ks l).1.nextId := by
  induction ks generalizing l with
  | nil => exact le_refl _
  | cons k ks ih =>
    unfold step4fold
    cases hd : duesDict l0 q k with
    | none => exact ih l
    | some b => exact le_trans (reverse_nextId_ge l b.txId) (ih (l.reverse b.txId))

theorem step4_WF {l0 : Ledger} {q : List Booking} {ks : List (Date × Int)} {l : Ledger}
    (hwf : l.WF) : (step4fold l0 q ks l).1.WF := by
  induction ks generalizing l with
  | nil => exact hwf
  | cons k ks ih =>
    unfold step4fold
    cases hd : duesDict l0 q k with
    | none => exact ih hwf
    | some b => exact ih (WF_reverse hwf b.txId)

theorem step4_bookingDate {l0 : Ledger} {q : List Booking} {ks : List (Date × Int)}
    {l : Ledger} {b : Booking} (hlt : b.txId < l.nextId) :
    bookingDate (step4fold l0 q ks l).1 b = bookingDate l b := by
  induction ks generalizing l with
  | nil => rfl
  | cons k ks ih =>
    unfold step4fold
    cases hd : duesDict l0 q k with
    | none => exact ih hlt
    | some b2 =>
      rw [ih (lt_of_lt_of_le hlt (reverse_nextId_ge l b2.txId)), bookingDate_reverse hlt]

theorem step4_txActive {l0 : Ledger} {q : List Booking} (ks : List (Date × Int))
    {l : Ledger} {i : Nat} (hlt : i < l.nextId) :
    txActive (step4fold l0 q ks l).1 i = true ↔
      (txActive l i = true ∧
        ∀ k ∈ ks, ∀ b, duesDict l0 q k = some b → b.txId ≠ i) := by
  induction ks generalizing l with
  | nil => simp [step4fold]
  | cons k ks ih =>
    unfold step4fold
    cases hd : duesDict l0 q k with
    | none =>
      rw [ih hlt]
      constructor
      · rintro ⟨h1, h2⟩
        refine ⟨h1, ?_⟩
        intro k2 hk2 b2 hb2
        rcases List.mem_cons.mp hk2 with rfl | hk2
        · rw [hd] at hb2; cases hb2
        · exact h2 k2 hk2 b2 hb2
      · rintro ⟨h1, h2⟩
        exact ⟨h1, fun k2 hk2 b2 hb2 => h2 k2 (List.mem_cons_of_mem _ hk2) b2 hb2⟩
    | some b =>
      rw [ih (lt_of_lt_of_le hlt (reverse_nextId_ge l b.txId))]
      by_cases hbi : b.txId = i
      · subst hbi
        rw [txActive_reverse_self]
        simp only [Bool.false_eq_true, false_and, false_iff, not_and]
        intro _ h2
        exact absurd rfl (h2 k (List.mem_cons_self k ks) b hd)
      · rw [txActive_reverse_of_ne (Ne.symm hbi) hlt]
        constructor
        · rintro ⟨h1, h2⟩
          refine ⟨h1, ?_⟩
          intro k2 hk2 b2 hb2
          rcases List.mem_cons.mp hk2 with rfl | hk2
          · rw [hd] at hb2
            cases hb2
            exact hbi
          · exact h2 k2 hk2 b2 hb2
        · rintro ⟨h1, h2⟩
          exact ⟨h1, fun k2 hk2 b2 hb2 => h2 k2 (List.mem_cons_of_mem _ hk2) b2 hb2⟩

theorem step5_nextId_ge (m : Nat) (ks : List (Date × Int)) (l : Ledger) :
    l.nextId ≤ (step5fold m ks l).nextId := by
  induction ks generalizing l with
  | nil => exact le_refl _
  | cons k ks ih =>
    unfold step5fold
    exact le_trans (by rw [createDue_nextId]; omega) (ih (l.createDue m k.1 k.2))

theorem step5_WF {m : Nat} {ks : List (Date × Int)} {l : Ledger}
    (hwf : l.WF) : (step5fold m ks l).WF := by
  induction ks generalizing l with
  | nil => exact hwf
  | cons k ks ih => exact ih (WF_createDue hwf m k.1 k.2)

theorem step5_bookings_super {m : Nat} {ks : List (Date × Int)} {l : Ledger}
    {b : Booking} (hb : b ∈ l.bookings) : b ∈ (step5fold m ks l).bookings := by
  induction ks generalizing l with
  | nil => exact hb
  | cons k ks ih =>
    unfold step5fold
    exact ih (by rw [createDue_bookings]; exact List.mem_append_left _ hb)

theorem step5_findTx_old {m : Nat} {ks : List (Date × Int)} {l : Ledger} {i : Nat}
    (hlt : i < l.nextId) :
    (step5fold m ks l).findTx i = l.findTx i := by
  induction ks generalizing l with
  | nil => rfl
  | cons k ks ih =>
    unfold step5fold
    rw [ih (by rw [createDue_nextId]; omega), createDue_findTx_old _ _ _ hlt]

theorem step5_txActive_old {m : Nat} {ks : List (Date × Int)} {l : Ledger} {i : Nat}
    (hlt : i < l.nextId) :
    txActive (step5fold m ks l) i = txActive l i := by
  unfold txActive
  rw [step5_findTx_old hlt]

theorem step5_bookingDate_old {m : Nat} {ks : List (Date × Int)} {l : Ledger} {b : Booking}
    (hlt : b.txId < l.nextId) :
    bookingDate (step5fold m ks l) b = bookingDate l b := by
  unfold bookingDate
  rw [step5_findTx_old hlt]

theorem step5_mem {m : Nat} (ks : List (Date × Int)) {l : Ledger} (hwf : l.WF) :
    ∀ b ∈ (step5fold m ks l).bookings,
      b ∈ l.bookings ∨
      ∃ k ∈ ks, b.amount = k.2 ∧ b.memberId = some m ∧
        (step5fold m ks l).findTx b.txId = some ⟨b.txId, k.1, none⟩ ∧
        l.nextId ≤ b.txId := by
  induction ks generalizing l with
  | nil => exact fun b hb => Or.inl hb
  | cons k ks ih =>
    intro b hb
    unfold step5fold at hb ⊢
    rcases ih (WF_createDue hwf m k.1 k.2) b hb with hb2 | ⟨k2, hk2, h1, h2, h3, h4⟩
    · rw [createDue_bookings] at hb2
      rcases List.mem_append.mp hb2 with hb3 | hb3
      · exact Or.inl hb3
      · simp only [List.mem_cons, List.not_mem_nil, or_false] at hb3
        have htid : b.txId = l.nextId := by
          rcases hb3 with rfl | rfl <;> rfl
        have hamt : b.amount = k.2 := by
          rcases hb3 with rfl | rfl <;> rfl
        have hmem : b.memberId = some m := by
          rcases hb3 with rfl | rfl <;> rfl
        refine Or.inr ⟨k, List.mem_cons_self k ks, hamt, hmem, ?_, by omega⟩
        rw [htid, step5_findTx_old (by rw [createDue_nextId]; omega),
          createDue_findTx_new hwf]
    · refine Or.inr ⟨k2, List.mem_cons_of_mem _ hk2, h1, h2, h3, ?_⟩
      rw [createDue_nextId] at h4
      omega

theorem step5_created {m : Nat} (ks : List (Date × Int)) {l : Ledger} (hwf : l.WF) :
    ∀ k ∈ ks, ∃ b ∈ (step5fold m ks l).bookings,
      b.memberId = some m ∧ b.credit_account = some Account.fees ∧
      b.amount = k.2 ∧
      (step5fold m ks l).findTx b.txId = some ⟨b.txId, k.1, none⟩ ∧
      l.nextId ≤ b.txId := by
  induction ks generalizing l with
  | nil => intro k hk; cases hk
  | cons k0 ks ih =>
    intro k hk
    rcases List.mem_cons.mp hk with rfl | hk
    · refine ⟨⟨l.nextId, some m, none, some Account.fees, k.2⟩, ?_, rfl, rfl, rfl, ?_, le_refl _⟩
      · unfold step5fold
        apply step5_bookings_super
        rw [createDue_bookings]
        exact List.mem_append_right _ (List.mem_cons_self _ _)
      · unfold step5fold
        show (step5fold m ks (l.createDue m k.1 k.2)).findTx l.nextId = _
        rw [step5_findTx_old (by rw [createDue_nextId]; omega), createDue_findTx_new hwf]
    · obtain ⟨b, hb, h1, h2, h3, h4, h5⟩ := ih (WF_createDue hwf m k0.1 k0.2) k hk
      refine ⟨b, hb, h1, h2, h3, h4, ?_⟩
      rw [createDue_nextId] at h5
      omega

theorem step6_bookings (bs : List Booking) (l : Ledger) :
    (step6fold bs l).bookings = l.bookings := by
  induction bs generalizing l with
  | nil => rfl
  | cons b bs ih =>
    unfold step6fold
    rw [ih (l.reverse b.txId), reverse_bookings]

theorem step6_nextId_ge (bs : List Booking) (l : Ledger) :
    l.nextId ≤ (step6fold bs l).nextId := by
  induction bs generalizing l with
  | nil => exact le_refl _
  | cons b bs ih =>
    unfold step6fold
    exact le_trans (reverse_nextId_ge l b.txId) (ih (l.reverse b.txId))

theorem step6_WF {bs : List Booking} {l : Ledger} (hwf : l.WF) :
    (step6fold bs l).WF := by
  induction bs generalizing l with
  | nil => exact hwf
  | cons b bs ih => exact ih (WF_reverse hwf b.txId)

theorem step6_bookingDate {bs : List Booking} {l : Ledger} {b : Booking}
    (hlt : b.txId < l.nextId) :
    bookingDate (step6fold bs l) b = bookingDate l b := by
  induction bs generalizing l with
  | nil => rfl
  | cons b2 bs ih =>
    unfold step6fold
    rw [ih (lt_of_lt_of_le hlt (reverse_nextId_ge l b2.txId)), bookingDate_reverse hlt]

theorem step6_txActive (bs : List Booking) {l : Ledger} {i : Nat} (hlt : i < l.nextId) :
    txActive (step6fold bs l) i = true ↔
      (txActive l i = true ∧ ∀ b2 ∈ bs, b2.txId ≠ i) := by
  induction bs generalizing l with
  | nil => simp [step6fold]
  | cons b bs ih =>
    unfold step6fold
    rw [ih (lt_of_lt_of_le hlt (reverse_nextId_ge l b.txId))]
    by_cases hbi : b.txId = i
    · subst hbi
      rw [txActive_reverse_self]
      simp only [Bool.false_eq_true, false_and, false_iff, not_and]
      intro _ h2
      exact absurd rfl (h2 b (List.mem_cons_self b bs))
    · rw [txActive_reverse_of_ne (Ne.symm hbi) hlt]
      constructor
      · rintro ⟨h1, h2⟩
        refine ⟨h1, ?_⟩
        intro b2 hb2
        rcases List.mem_cons.mp hb2 with rfl | hb2
        · exact hbi
        · exact h2 b2 hb2
      · rintro ⟨h1, h2⟩
        exact ⟨h1, fun b2 hb2 => h2 b2 (List.mem_cons_of_mem _ hb2)⟩

/-! ## Bounds on the generated dues -/

theorem monthShift_lt {d : Date} {i : Nat} (hm1 : 1 ≤ d.month) (hm2 : d.month ≤ 12)
    (hi : 1 ≤ i) : dateLt d (monthShift d (i : Int)) := by
  unfold monthShift dateLt
  simp only
  have hdm : 12 * (((d.month : Int) - 1 + (i : Int)).ediv 12) +
      ((d.month : Int) - 1 + (i : Int)).emod 12 = (d.month : Int) - 1 + (i : Int) :=
    Int.ediv_add_emod _ 12
  have hr0 : 0 ≤ ((d.month : Int) - 1 + (i : Int)).emod 12 :=
    Int.emod_nonneg _ (by omega)
  have hr1 : ((d.month : Int) - 1 + (i : Int)).emod 12 < 12 :=
    Int.emod_lt_of_pos _ (by omega)
  have ht : ((((d.month : Int) - 1 + (i : Int)).emod 12).toNat : Int) =
      ((d.month : Int) - 1 + (i : Int)).emod 12 := Int.toNat_of_nonneg hr0
  omega

theorem monthShift_monthOK (d : Date) (k : Int) :
    1 ≤ (monthShift d k).month ∧ (monthShift d k).month ≤ 12 := by
  unfold monthShift
  simp only
  have hr0 : 0 ≤ ((d.month : Int) - 1 + k).emod 12 := Int.emod_nonneg _ (by omega)
  have hr1 : ((d.month : Int) - 1 + k).emod 12 < 12 := Int.emod_lt_of_pos _ (by omega)
  have ht : ((((d.month : Int) - 1 + k).emod 12).toNat : Int) =
      ((d.month : Int) - 1 + k).emod 12 := Int.toNat_of_nonneg hr0
  omega

theorem duesLoop_mem_le {a : Int} {i : Nat} {stop : Date} :
    ∀ {fuel : Nat} {d : Date} {k : Date × Int}, k ∈ duesLoop a i stop d fuel →
      k.2 = a ∧ dateLE k.1 stop := by
  intro fuel
  induction fuel with
  | zero => intro d k hk; cases hk
  | succ fuel ih =>
    intro d k hk
    unfold duesLoop at hk
    by_cases hg : dateLeB d stop
    · rw [if_pos hg] at hk
      rcases List.mem_cons.mp hk with rfl | hk
      · exact ⟨rfl, of_decide_eq_true hg⟩
      · exact ih hk
    · rw [if_neg hg] at hk
      cases hk

theorem duesLoop_mem_ge {a : Int} {i : Nat} {stop : Date} (hi : 1 ≤ i) :
    ∀ {fuel : Nat} {d : Date} {k : Date × Int},
      1 ≤ d.month → d.month ≤ 12 → k ∈ duesLoop a i stop d fuel →
      dateLE d k.1 := by
  intro fuel
  induction fuel with
  | zero => intro d k _ _ hk; cases hk
  | succ fuel ih =>
    intro d k hm1 hm2 hk
    unfold duesLoop at hk
    by_cases hg : dateLeB d stop
    · rw [if_pos hg] at hk
      rcases List.mem_cons.mp hk with rfl | hk
      · exact dateLE_refl d
      · have hnext := monthShift_monthOK d (i : Int)
        have := ih hnext.1 hnext.2 hk
        exact dateLE_trans (dateLE_of_lt (monthShift_lt hm1 hm2 hi)) this
    · rw [if_neg hg] at hk
      cases hk

theorem get_dues_start_monthOK {ms : Membership} {n : Date} {F : Option Date}
    (hm : 1 ≤ ms.start.month ∧ ms.start.month ≤ 12)
    (hf : ∀ f, F = some f → 1 ≤ f.month ∧ f.month ≤ 12) :
    1 ≤ (get_dues ms n F).1.1.month ∧ (get_dues ms n F).1.1.month ≤ 12 := by
  cases F with
  | none => exact hm
  | some f =>
    unfold get_dues
    simp only
    by_cases hlt : dateLtB ms.start f = true
    · rw [if_pos hlt]; exact hf f rfl
    · rw [if_neg hlt]; exact hm

theorem dateLE_of_not_lt {a b : Date} (h : ¬ dateLt a b) : dateLE b a := by
  unfold dateLt at h; unfold dateLE; omega

theorem get_dues_start_ge_from {ms : Membership} {n : Date} {f : Date} :
    dateLE f (get_dues ms n (some f)).1.1 := by
  unfold get_dues
  simp only
  by_cases hlt : dateLtB ms.start f = true
  · rw [if_pos hlt]; exact dateLE_refl f
  · rw [if_neg hlt]
    exact dateLE_of_not_lt (fun hc => hlt (decide_eq_true hc))

theorem get_dues_mem {ms : Membership} {n : Date} {F : Option Date}
    (hi : 1 ≤ ms.interval)
    (hm : 1 ≤ ms.start.month ∧ ms.start.month ≤ 12)
    (hf : ∀ f, F = some f → 1 ≤ f.month ∧ f.month ≤ 12) :
    ∀ k ∈ (get_dues ms n F).2,
      dateLE (get_dues ms n F).1.1 k.1 ∧ dateLE k.1 (get_dues ms n F).1.2 := by
  intro k hk
  have hsm := @get_dues_start_monthOK ms n F hm hf
  have h1 : (get_dues ms n F).2 =
      duesLoop ms.amount ms.interval (get_dues ms n F).1.2 (get_dues ms n F).1.1
        (duesFuel (get_dues ms n F).1.1 (get_dues ms n F).1.2) := rfl
  rw [h1] at hk
  exact ⟨duesLoop_mem_ge hi hsm.1 hsm.2 hk, (duesLoop_mem_le hk).2⟩

theorem get_dues_fromOK {ms : Membership} {n : Date} {F : Option Date}
    (hi : 1 ≤ ms.interval)
    (hm : 1 ≤ ms.start.month ∧ ms.start.month ≤ 12)
    (hf : ∀ f, F = some f → 1 ≤ f.month ∧ f.month ≤ 12) :
    ∀ k ∈ (get_dues ms n F).2, fromOKB F k.1 = true := by
  intro k hk
  cases F with
  | none => rfl
  | some f =>
    have h1 := (get_dues_mem hi hm hf k hk).1
    have h2 := @get_dues_start_ge_from ms n f
    unfold fromOKB dateLeB
    exact decide_eq_true (dateLE_trans h2 h1)

theorem inRangesB_of_mem {ranges : List (Date × Date)} {r : Date × Date} {d : Date}
    (hr : r ∈ ranges) (h1 : dateLE r.1 d) (h2 : dateLE d r.2) :
    inRangesB ranges d = true := by
  unfold inRangesB
  rw [List.any_eq_true]
  refine ⟨r, hr, ?_⟩
  unfold dateLeB
  rw [decide_eq_true h1, decide_eq_true h2]
  rfl

theorem step1_ranges_nil {mss : List Membership} {n : Date} {F : Option Date}
    (h : (step1 mss n F).1 = []) : (step1 mss n F).2 = [] := by
  induction mss with
  | nil => rfl
  | cons ms mss ih =>
    unfold step1 at h ⊢
    by_cases hz : ms.amount = 0
    · rw [if_pos hz] at h ⊢
      exact ih h
    · rw [if_neg hz] at h
      cases h

theorem step1_bounds {mss : List Membership} {n : Date} {F : Option Date}
    (hms : ∀ ms ∈ mss, 1 ≤ ms.interval ∧ 1 ≤ ms.start.month ∧ ms.start.month ≤ 12)
    (hf : ∀ f, F = some f → 1 ≤ f.month ∧ f.month ≤ 12) :
    ∀ k ∈ (step1 mss n F).2,
      inRangesB (step1 mss n F).1 k.1 = true ∧ fromOKB F k.1 = true := by
  induction mss with
  | nil => intro k hk; cases hk
  | cons ms mss ih =>
    intro k hk
    unfold step1 at hk ⊢
    by_cases hz : ms.amount = 0
    · rw [if_pos hz] at hk ⊢
      exact ih (fun ms2 hms2 => hms ms2 (List.mem_cons_of_mem _ hms2)) k hk
    · rw [if_neg hz] at hk ⊢
      simp only at hk ⊢
      obtain ⟨hi, hm1, hm2⟩ := hms ms (List.mem_cons_self ms mss)
      rcases List.mem_union_iff.mp hk with hk2 | hk2
      · have hb := get_dues_mem hi ⟨hm1, hm2⟩ hf k hk2
        refine ⟨inRangesB_of_mem (List.mem_cons_self _ _) hb.1 hb.2, ?_⟩
        exact get_dues_fromOK hi ⟨hm1, hm2⟩ hf k hk2
      · obtain ⟨hin, hfr⟩ := ih (fun ms2 hms2 => hms ms2 (List.mem_cons_of_mem _ hms2)) k hk2
        refine ⟨?_, hfr⟩
        unfold inRangesB at hin ⊢
        rw [List.any_eq_true] at hin ⊢
        obtain ⟨r, hr, hpr⟩ := hin
        exact ⟨r, List.mem_cons_of_mem _ hr, hpr⟩

/-! ## The reconciliation core: the state after one run

Under the structural hypotheses (well-formed ledger, at most one in-scope
due booking per transaction, pairwise distinct `(date, amount)` keys among
the range-restricted due bookings), the ledger produced by one
`update_liabilites` run has exactly the scheduled dues as active in-scope
due postings and no strays. -/

theorem recon_core (m : Nat) (F : Option Date) (ranges : List (Date × Date))
    (dues : List (Date × Int)) (l0 : Ledger)
    (hwf : l0.WF)
    (htx : ((l0.bookings.filter (dueScope l0 m F)).map (fun b => b.txId)).Nodup)
    (hkeys : ((duesQs l0 m F ranges).map (bookingKey l0)).Nodup)
    (hdr : ∀ k ∈ dues, inRangesB ranges k.1 = true ∧ fromOKB F k.1 = true)
    (hrn : ranges = [] → dues = []) :
    (∀ b ∈ (recon1 m F ranges dues l0).bookings,
        dueScope (recon1 m F ranges dues l0) m F b = true →
        bookingKey (recon1 m F ranges dues l0) b ∈ dues ∧
        ranges ≠ [] ∧
        inRangesB ranges (bookingDate (recon1 m F ranges dues l0) b) = true) ∧
    (∀ k ∈ dues, ∃ b ∈ (recon1 m F ranges dues l0).bookings,
        dueScope (recon1 m F ranges dues l0) m F b = true ∧
        bookingKey (recon1 m F ranges dues l0) b = k) := by
  set q0 := duesQs l0 m F ranges with hq0
  set k0 := (q0.map (bookingKey l0)).dedup with hk0
  set wrongS := sortDues (k0.filter (fun k => decide (k ∉ dues))) with hwrongS
  set missingS := sortDues (dues.filter (fun k => decide (k ∉ k0))) with hmissS
  set l1 := (step4fold l0 q0 wrongS l0).1 with hl1
  set l2 := step5fold m missingS l1 with hl2
  set strays := strayQs l2 m F ranges with hstrays
  have hrec : recon1 m F ranges dues l0 = step6fold strays l2 := rfl
  rw [hrec]
  set l3 := step6fold strays l2 with hl3
  -- well-formedness and counters along the pipeline
  have hwf1 : l1.WF := step4_WF hwf
  have hwf2 : l2.WF := step5_WF hwf1
  have hn01 : l0.nextId ≤ l1.nextId := step4_nextId_ge l0 q0 wrongS l0
  have hn12 : l1.nextId ≤ l2.nextId := step5_nextId_ge m missingS l1
  have hb1 : l1.bookings = l0.bookings := step4_bookings l0 q0 wrongS l0
  have hb3 : l3.bookings = l2.bookings := step6_bookings strays l2
  have hbk0 : ∀ b ∈ l0.bookings, b.txId < l0.nextId := hwf.2.2
  -- membership descriptions of the diffed sets
  have hwrong_mem : ∀ k : Date × Int, k ∈ wrongS ↔ (k ∈ k0 ∧ k ∉ dues) := by
    intro k
    rw [hwrongS, mem_sortDues, List.mem_filter]
    simp only [decide_eq_true_eq]
  have hmiss_mem : ∀ k : Date × Int, k ∈ missingS ↔ (k ∈ dues ∧ k ∉ k0) := by
    intro k
    rw [hmissS, mem_sortDues, List.mem_filter]
    simp only [decide_eq_true_eq]
  have hk0_mem : ∀ k : Date × Int, k ∈ k0 ↔ ∃ b, b ∈ q0 ∧ bookingKey l0 b = k := by
    intro k
    rw [hk0, List.mem_dedup, List.mem_map]
  have hq0_mem : ∀ b : Booking, b ∈ q0 ↔
      (b ∈ l0.bookings ∧ dueScope l0 m F b = true ∧
        (ranges.isEmpty || inRangesB ranges (bookingDate l0 b)) = true) := by
    intro b
    rw [hq0]
    exact mem_duesQs
  -- injectivity consequences of the two Nodup hypotheses
  have htxinj : ∀ b1 ∈ l0.bookings, ∀ b2 ∈ l0.bookings,
      dueScope l0 m F b1 = true → dueScope l0 m F b2 = true →
      b1.txId = b2.txId → b1 = b2 := by
    intro b1 h1 b2 h2 hs1 hs2 he
    exact List.inj_on_of_nodup_map htx (List.mem_filter.mpr ⟨h1, hs1⟩)
      (List.mem_filter.mpr ⟨h2, hs2⟩) he
  have hkeyinj : ∀ b1 ∈ q0, ∀ b2 ∈ q0,
      bookingKey l0 b1 = bookingKey l0 b2 → b1 = b2 := by
    intro b1 h1 b2 h2 he
    exact List.inj_on_of_nodup_map hkeys h1 h2 he
  -- value dates of whatever bookings existed at a stage are stable
  have hdate1 : ∀ b : Booking, b.txId < l0.nextId → bookingDate l1 b = bookingDate l0 b :=
    fun b hlt => step4_bookingDate hlt
  have hdate2 : ∀ b : Booking, b.txId < l0.nextId → bookingDate l2 b = bookingDate l0 b := by
    intro b hlt
    rw [hl2, step5_bookingDate_old (lt_of_lt_of_le hlt hn01)]
    exact hdate1 b hlt
  have hdate23 : ∀ b : Booking, b.txId < l2.nextId → bookingDate l3 b = bookingDate l2 b :=
    fun b hlt => step6_bookingDate hlt
  have hdate3 : ∀ b : Booking, b.txId < l0.nextId → bookingDate l3 b = bookingDate l0 b := by
    intro b hlt
    rw [hdate23 b (lt_of_lt_of_le hlt (le_trans hn01 hn12))]
    exact hdate2 b hlt
  -- activity along the pipeline
  have hact1 : ∀ i, i < l0.nextId → (txActive l1 i = true ↔
      (txActive l0 i = true ∧ ∀ k ∈ wrongS, ∀ b, duesDict l0 q0 k = some b → b.txId ≠ i)) :=
    fun i hlt => step4_txActive wrongS hlt
  have hact2 : ∀ i, i < l1.nextId → txActive l2 i = txActive l1 i :=
    fun i hlt => step5_txActive_old hlt
  have hact3 : ∀ i, i < l2.nextId → (txActive l3 i = true ↔
      (txActive l2 i = true ∧ ∀ b2 ∈ strays, b2.txId ≠ i)) :=
    fun i hlt => step6_txActive strays hlt
  -- every wrong key has its dictionary booking
  have hdict : ∀ k ∈ wrongS, ∃ b, duesDict l0 q0 k = some b ∧ b ∈ q0 ∧ bookingKey l0 b = k := by
    intro k hk
    exact duesDict_of_mem (by
      obtain ⟨b, hb, hkb⟩ := (hk0_mem k).mp ((hwrong_mem k).mp hk).1
      exact ⟨b, hb, hkb⟩)
  -- scope transfer from the initial ledger into the post-step-5 ledger
  have hscope2 : ∀ b ∈ l0.bookings, (dueScope l2 m F b = true ↔
      (dueScope l0 m F b = true ∧
        ∀ k ∈ wrongS, ∀ b2, duesDict l0 q0 k = some b2 → b2.txId ≠ b.txId)) := by
    intro b hb
    have hlt := hbk0 b hb
    have hdq : bookingDate l2 b = bookingDate l0 b := hdate2 b hlt
    have ha : txActive l2 b.txId = txActive l1 b.txId :=
      hact2 b.txId (lt_of_lt_of_le hlt hn01)
    rw [dueScope_iff, dueScope_iff, hdq, ha, hact1 b.txId hlt]
    tauto
  have hstrays_mem : ∀ b : Booking, b ∈ strays ↔
      (b ∈ l2.bookings ∧ dueScope l2 m F b = true ∧
        (ranges.isEmpty || !inRangesB ranges (bookingDate l2 b)) = true) := by
    intro b
    rw [hstrays]
    exact mem_strayQs
  -- decomposition of the post-step-5 bookings
  have hmem2 : ∀ b ∈ l2.bookings, b ∈ l0.bookings ∨
      ∃ k ∈ missingS, b.amount = k.2 ∧ b.memberId = some m ∧
        l2.findTx b.txId = some ⟨b.txId, k.1, none⟩ ∧ l1.nextId ≤ b.txId := by
    intro b hb
    rcases step5_mem missingS hwf1 b hb with h | ⟨k, hk, h1, h2, h3, h4⟩
    · rw [hb1] at h
      exact Or.inl h
    · exact Or.inr ⟨k, hk, h1, h2, h3, h4⟩
  -- strays are pre-existing bookings, and in scope initially
  have hstray_old : ∀ b ∈ strays, b ∈ l0.bookings := by
    intro b hbs
    obtain ⟨hbl2, hsc, hpred⟩ := (hstrays_mem b).mp hbs
    rcases hmem2 b hbl2 with h | ⟨k, hk, h1, h2, h3, h4⟩
    · exact h
    · exfalso
      have hkd : k ∈ dues := ((hmiss_mem k).mp hk).1
      have hrange := (hdr k hkd).1
      have hdateb : bookingDate l2 b = k.1 := by unfold bookingDate; rw [h3]
      rw [hdateb, hrange] at hpred
      cases hR : ranges with
      | nil =>
        rw [hrn hR] at hkd
        cases hkd
      | cons r rs =>
        rw [hR] at hpred
        simp at hpred
  have hstray_scope0 : ∀ b ∈ strays, dueScope l0 m F b = true := by
    intro b hbs
    exact ((hscope2 b (hstray_old b hbs)).mp ((hstrays_mem b).mp hbs).2.1).1
  -- scope transfer into the final ledger
  have hscope3 : ∀ b : Booking, b.txId < l2.nextId → (dueScope l3 m F b = true ↔
      (dueScope l2 m F b = true ∧ ∀ b2 ∈ strays, b2.txId ≠ b.txId)) := by
    intro b hlt
    rw [dueScope_iff, dueScope_iff, hdate23 b hlt, hact3 b.txId hlt]
    tauto
  constructor
  · -- every booking in scope at the end carries a scheduled key and lies in range
    intro b hb hsc
    rw [hb3] at hb
    have hltb2 : b.txId < l2.nextId := hwf2.2.2 b hb
    obtain ⟨hsc2, hstraycond⟩ := (hscope3 b hltb2).mp hsc
    rcases hmem2 b hb with hbo | ⟨k, hk, h1, h2, h3, h4⟩
    · -- a pre-existing booking that survived
      have hlt0 : b.txId < l0.nextId := hbk0 b hbo
      obtain ⟨hsc0, hwcond⟩ := (hscope2 b hbo).mp hsc2
      have hrne_and : ranges ≠ [] ∧ inRangesB ranges (bookingDate l0 b) = true := by
        by_contra hcon
        have hpred : (ranges.isEmpty || !inRangesB ranges (bookingDate l2 b)) = true := by
          rw [hdate2 b hlt0]
          rcases not_and_or.mp hcon with h | h
          · rw [not_not.mp h]
            rfl
          · have hfalse : inRangesB ranges (bookingDate l0 b) = false := by
              cases hcase : inRangesB ranges (bookingDate l0 b) with
              | true => exact absurd hcase h
              | false => rfl
            rw [hfalse]
            simp
        exact hstraycond b ((hstrays_mem b).mpr ⟨hb, hsc2, hpred⟩) rfl
      obtain ⟨hrne, hinr⟩ := hrne_and
      have hbq0 : b ∈ q0 := (hq0_mem b).mpr ⟨hbo, hsc0, by rw [hinr]; simp⟩
      have hkey3 : bookingKey l3 b = bookingKey l0 b := by
        unfold bookingKey
        rw [hdate3 b hlt0]
      refine ⟨?_, hrne, by rw [hdate3 b hlt0]; exact hinr⟩
      rw [hkey3]
      by_contra hknd
      have hkk0 : bookingKey l0 b ∈ k0 := (hk0_mem _).mpr ⟨b, hbq0, rfl⟩
      have hkw : bookingKey l0 b ∈ wrongS := (hwrong_mem _).mpr ⟨hkk0, hknd⟩
      obtain ⟨b2, hd2, hb2q0, hkb2⟩ := hdict _ hkw
      have heq : b2 = b := hkeyinj b2 hb2q0 b hbq0 hkb2
      exact hwcond _ hkw b2 hd2 (by rw [heq])
    · -- a booking created in step 5
      have hkd : k ∈ dues := ((hmiss_mem k).mp hk).1
      have hdateb : bookingDate l2 b = k.1 := by unfold bookingDate; rw [h3]
      have hdl3 : bookingDate l3 b = k.1 := by rw [hdate23 b hltb2, hdateb]
      have hrne : ranges ≠ [] := by
        intro hrnil
        rw [hrn hrnil] at hkd
        cases hkd
      refine ⟨?_, hrne, by rw [hdl3]; exact (hdr k hkd).1⟩
      have hkeq : bookingKey l3 b = k := by
        unfold bookingKey
        rw [hdl3, h1]
      rw [hkeq]
      exact hkd
  · -- every scheduled key is carried by some in-scope booking at the end
    intro k hkmem
    by_cases hkk0 : k ∈ k0
    · -- it was already posted: the posting survives
      obtain ⟨b, hbq0, hkb⟩ := (hk0_mem k).mp hkk0
      obtain ⟨hbo, hsc0, hrc0⟩ := (hq0_mem b).mp hbq0
      have hlt0 := hbk0 b hbo
      have hltb2 : b.txId < l2.nextId := lt_of_lt_of_le hlt0 (le_trans hn01 hn12)
      have hwcond : ∀ k2 ∈ wrongS, ∀ b2, duesDict l0 q0 k2 = some b2 → b2.txId ≠ b.txId := by
        intro k2 hk2 b2 hd2 he
        obtain ⟨b3, hd3, hb3q0, hkb3⟩ := hdict k2 hk2
        rw [hd3] at hd2
        cases hd2
        have hb3o : b2 ∈ l0.bookings := ((hq0_mem b2).mp hb3q0).1
        have hsc3b : dueScope l0 m F b2 = true := ((hq0_mem b2).mp hb3q0).2.1
        have heq : b2 = b := htxinj b2 hb3o b hbo hsc3b hsc0 he
        rw [heq, hkb] at hkb3
        exact ((hwrong_mem k2).mp hk2).2 (hkb3 ▸ hkmem)
      have hsc2 : dueScope l2 m F b = true := (hscope2 b hbo).mpr ⟨hsc0, hwcond⟩
      have hstraycond : ∀ b2 ∈ strays, b2.txId ≠ b.txId := by
        intro b2 hb2s he
        have hb2o := hstray_old b2 hb2s
        have hsc20 := hstray_scope0 b2 hb2s
        have heq : b2 = b := htxinj b2 hb2o b hbo hsc20 hsc0 he
        rw [heq] at hb2s
        obtain ⟨_, _, hpred⟩ := (hstrays_mem b).mp hb2s
        rw [hdate2 b hlt0] at hpred
        have hrne : ranges ≠ [] := by
          intro hrnil
          rw [hrn hrnil] at hkmem
          cases hkmem
        cases hR : ranges with
        | nil => exact hrne hR
        | cons r rs =>
          rw [hR] at hpred hrc0
          cases hcase : inRangesB (r :: rs) (bookingDate l0 b) with
          | true => rw [hcase] at hpred; simp at hpred
          | false => rw [hcase] at hrc0; simp at hrc0
      have hsc3 : dueScope l3 m F b = true := (hscope3 b hltb2).mpr ⟨hsc2, hstraycond⟩
      refine ⟨b, ?_, hsc3, ?_⟩
      · rw [hb3, hl2]
        exact step5_bookings_super (hb1 ▸ hbo)
      · unfold bookingKey
        unfold bookingKey at hkb
        rw [hdate3 b hlt0]
        exact hkb
    · -- it was missing: step 5 created it
      have hkm : k ∈ missingS := (hmiss_mem k).mpr ⟨hkmem, hkk0⟩
      obtain ⟨b, hbmem, h1, h2, h3, h4, h5⟩ := step5_created missingS hwf1 k hkm
      have hbl2 : b ∈ l2.bookings := hbmem
      have hltb2 : b.txId < l2.nextId := hwf2.2.2 b hbl2
      have hdateb : bookingDate l2 b = k.1 := by unfold bookingDate; rw [h4]
      have hact2b : txActive l2 b.txId = true := by
        unfold txActive
        rw [h4]
        simp
      have hfrom : fromOKB F (bookingDate l2 b) = true := by
        rw [hdateb]
        exact (hdr k hkmem).2
      have hsc2 : dueScope l2 m F b = true := dueScope_iff.mpr ⟨h1, h2, hact2b, hfrom⟩
      have hstraycond : ∀ b2 ∈ strays, b2.txId ≠ b.txId := by
        intro b2 hb2s he
        have hb2o := hstray_old b2 hb2s
        have hlt2 := hbk0 b2 hb2o
        omega
      have hsc3 : dueScope l3 m F b = true := (hscope3 b hltb2).mpr ⟨hsc2, hstraycond⟩
      refine ⟨b, by rw [hb3]; exact hbl2, hsc3, ?_⟩
      unfold bookingKey
      rw [hdate23 b hltb2, hdateb, h3]

/-- A ledger on which the schedule comparison finds nothing to do makes
`update_liabilites` a complete no-op: empty wrong and missing sets, no
reversals, no creations, no stray reversals, and an unchanged ledger. -/
theorem update_liabilites_quiescent (m : Nat) (mss : List Membership) (l : Ledger)
    (n : Date) (cfg : Config)
    (h1 : ∀ b ∈ duesQs l m cfg.accounting_start (step1 mss n cfg.accounting_start).1,
        bookingKey l b ∈ (step1 mss n cfg.accounting_start).2)
    (h2 : ∀ k ∈ (step1 mss n cfg.accounting_start).2,
        ∃ b ∈ duesQs l m cfg.accounting_start (step1 mss n cfg.accounting_start).1,
          bookingKey l b = k)
    (h3 : strayQs l m cfg.accounting_start (step1 mss n cfg.accounting_start).1 = []) :
    update_liabilites m mss l n cfg = ⟨[], [], [], [], [], l⟩ := by
  have hwrongnil :
      (((duesQs l m cfg.accounting_start (step1 mss n cfg.accounting_start).1).map
          (bookingKey l)).dedup).filter
        (fun k => decide (k ∉ (step1 mss n cfg.accounting_start).2)) = [] := by
    rw [List.filter_eq_nil_iff]
    intro k hk
    rw [List.mem_dedup, List.mem_map] at hk
    obtain ⟨b, hb, rfl⟩ := hk
    simp only [decide_eq_true_eq, not_not]
    exact h1 b hb
  have hmissnil :
      ((step1 mss n cfg.accounting_start).2).filter
        (fun k => decide (k ∉ ((duesQs l m cfg.accounting_start
          (step1 mss n cfg.accounting_start).1).map (bookingKey l)).dedup)) = [] := by
    rw [List.filter_eq_nil_iff]
    intro k hk
    simp only [decide_eq_true_eq, not_not]
    obtain ⟨b, hb, hkb⟩ := h2 k hk
    exact List.mem_dedup.mpr (List.mem_map.mpr ⟨b, hb, hkb⟩)
  unfold update_liabilites
  simp only [hwrongnil, hmissnil]
  have hs : sortDues [] = [] := rfl
  rw [hs]
  simp only [step4fold, step5fold, h3, step6fold, List.map_nil]

/-! ## Calendar validity lemmas (for the statute-cutoff analysis) -/

theorem daysInMonth_pos (y : Int) (m : Nat) : 1 ≤ daysInMonth y m := by
  unfold daysInMonth
  split
  · split <;> omega
  · split <;> omega

theorem daysInMonth_one (y : Int) : daysInMonth y 1 = 31 := rfl

theorem daysInMonth_twelve (y : Int) : daysInMonth y 12 = 31 := rfl

theorem monthShift_valid {d : Date} (k : Int) (hd : 1 ≤ d.day) :
    (monthShift d k).Valid := by
  have hmo := monthShift_monthOK d k
  refine ⟨hmo.1, hmo.2, ?_, ?_⟩
  · unfold monthShift at *
    simp only at *
    have := daysInMonth_pos (d.year + ((d.month : Int) - 1 + k).ediv 12)
      ((((d.month : Int) - 1 + k).emod 12).toNat + 1)
    omega
  · unfold monthShift
    simp only
    exact min_le_right _ _

theorem nextDay_valid {d : Date} (hv : d.Valid) : (nextDay d).Valid := by
  obtain ⟨hm1, hm2, hd1, hd2⟩ := hv
  unfold nextDay
  by_cases h1 : d.day < daysInMonth d.year d.month
  · rw [if_pos h1]
    refine ⟨hm1, hm2, ?_, ?_⟩
    · show 1 ≤ d.day + 1
      omega
    · show d.day + 1 ≤ daysInMonth d.year d.month
      omega
  · rw [if_neg h1]
    by_cases h2 : d.month < 12
    · rw [if_pos h2]
      refine ⟨?_, ?_, ?_, ?_⟩
      · show 1 ≤ d.month + 1
        omega
      · show d.month + 1 ≤ 12
        omega
      · show 1 ≤ 1
        omega
      · show 1 ≤ daysInMonth d.year (d.month + 1)
        exact daysInMonth_pos _ _
    · rw [if_neg h2]
      refine ⟨?_, ?_, ?_, ?_⟩
      · show 1 ≤ 1
        omega
      · show 1 ≤ 12
        omega
      · show 1 ≤ 1
        omega
      · show 1 ≤ daysInMonth (d.year + 1) 1
        exact daysInMonth_pos _ _

theorem prevDay_valid {d : Date} (hv : d.Valid) : (prevDay d).Valid := by
  obtain ⟨hm1, hm2, hd1, hd2⟩ := hv
  unfold prevDay
  by_cases h1 : 1 < d.day
  · rw [if_pos h1]
    refine ⟨hm1, hm2, ?_, ?_⟩
    · show 1 ≤ d.day - 1
      omega
    · show d.day - 1 ≤ daysInMonth d.year d.month
      omega
  · rw [if_neg h1]
    by_cases h2 : 1 < d.month
    · rw [if_pos h2]
      refine ⟨?_, ?_, ?_, ?_⟩
      · show 1 ≤ d.month - 1
        omega
      · show d.month - 1 ≤ 12
        omega
      · show 1 ≤ daysInMonth d.year (d.month - 1)
        exact daysInMonth_pos _ _
      · show daysInMonth d.year (d.month - 1) ≤ daysInMonth d.year (d.month - 1)
        exact le_refl _
    · rw [if_neg h2]
      refine ⟨?_, ?_, ?_, ?_⟩
      · show 1 ≤ 12
        omega
      · show 12 ≤ 12
        omega
      · show 1 ≤ 31
        omega
      · show 31 ≤ daysInMonth (d.year - 1) 12
        rw [daysInMonth_twelve]

theorem addDaysNat_valid : ∀ (n : Nat) {d : Date}, d.Valid → (addDaysNat d n).Valid
  | 0, _, hv => hv
  | Nat.succ n, _, hv => addDaysNat_valid n (nextDay_valid hv)

theorem subDaysNat_valid : ∀ (n : Nat) {d : Date}, d.Valid → (subDaysNat d n).Valid
  | 0, _, hv => hv
  | Nat.succ n, _, hv => subDaysNat_valid n (prevDay_valid hv)

theorem addDaysInt_valid (k : Int) {d : Date} (hv : d.Valid) :
    (addDaysInt d k).Valid := by
  unfold addDaysInt
  by_cases h : 0 ≤ k
  · rw [if_pos h]
    exact addDaysNat_valid _ hv
  · rw [if_neg h]
    exact subDaysNat_valid _ hv

theorem dateAddRD_valid (rd : RelativeDelta) {d : Date} (hd : 1 ≤ d.day) :
    (dateAddRD d rd).Valid := by
  unfold dateAddRD
  exact addDaysInt_valid _ (monthShift_valid _ hd)

theorem addDaysInt_zero (d : Date) : addDaysInt d 0 = d := rfl

theorem monthShift_zero {d : Date} (hv : d.Valid) : monthShift d 0 = d := by
  obtain ⟨hm1, hm2, hd1, hd2⟩ := hv
  unfold monthShift
  simp only
  have hdm : 12 * (((d.month : Int) - 1 + 0).ediv 12) +
      ((d.month : Int) - 1 + 0).emod 12 = (d.month : Int) - 1 + 0 :=
    Int.ediv_add_emod _ 12
  have hr0 : 0 ≤ ((d.month : Int) - 1 + 0).emod 12 := Int.emod_nonneg _ (by omega)
  have hr1 : ((d.month : Int) - 1 + 0).emod 12 < 12 := Int.emod_lt_of_pos _ (by omega)
  have ht := Int.toNat_of_nonneg hr0
  have he : ((d.month : Int) - 1 + 0).ediv 12 = 0 := by omega
  have hr : ((d.month : Int) - 1 + 0).emod 12 = (d.month : Int) - 1 := by omega
  rw [he, hr]
  have hmo : ((d.month : Int) - 1).toNat + 1 = d.month := by omega
  rw [hmo]
  have hy : d.year + 0 = d.year := by omega
  rw [hy]
  have hmin : min d.day (daysInMonth d.year d.month) = d.day := min_eq_left hd2
  rw [hmin]

theorem dateAddRD_zero {d : Date} (hv : d.Valid) : dateAddRD d ⟨0, 0, 0⟩ = d := by
  unfold dateAddRD
  simp only
  rw [show (12 * (0 : Int) + 0) = 0 by omega]
  rw [monthShift_zero hv]
  exact addDaysInt_zero d

/-! ## Claim theorems -/

/-- **C1** (amended).  Reconciliation is idempotent on structurally
unambiguous ledgers: assume the ledger is well-formed, every membership
has a positive interval and in-range month fields (as Django guarantees
for stored rows), no two of the member's active in-scope fee bookings
share an owning transaction, and no two of those inside the membership
ranges share the same `(value date, amount)` key.  Then a second
`update_liabilites` call with the same memberships, reference instant and
the ledger produced by the first call computes empty wrong and missing
sets and performs no ledger writes: no reversals, no created dues, no
stray reversals, and an unchanged ledger.  (Without the distinct-key
condition the claim is false: see the counterexample.) -/
theorem update_liabilites_idempotent (m : Nat) (mss : List Membership)
    (l0 : Ledger) (n : Date) (cfg : Config)
    (hwf : l0.WF)
    (hms : ∀ ms ∈ mss, 1 ≤ ms.interval ∧ 1 ≤ ms.start.month ∧ ms.start.month ≤ 12)
    (hfo : ∀ f, cfg.accounting_start = some f → 1 ≤ f.month ∧ f.month ≤ 12)
    (htx : ((l0.bookings.filter (dueScope l0 m cfg.accounting_start)).map
      (fun b => b.txId)).Nodup)
    (hkeys : ((duesQs l0 m cfg.accounting_start
      (step1 mss n cfg.accounting_start).1).map (bookingKey l0)).Nodup) :
    update_liabilites m mss (update_liabilites m mss l0 n cfg).ledger n cfg
      = ⟨[], [], [], [], [], (update_liabilites m mss l0 n cfg).ledger⟩ := by
  obtain ⟨hg1, hg2⟩ := recon_core m cfg.accounting_start
    (step1 mss n cfg.accounting_start).1 (step1 mss n cfg.accounting_start).2
    l0 hwf htx hkeys
    (@step1_bounds mss n cfg.accounting_start hms hfo)
    (fun h => step1_ranges_nil h)
  have hled : (update_liabilites m mss l0 n cfg).ledger
      = recon1 m cfg.accounting_start (step1 mss n cfg.accounting_start).1
          (step1 mss n cfg.accounting_start).2 l0 := rfl
  rw [hled]
  apply update_liabilites_quiescent
  · intro b hb
    obtain ⟨hbl, hsc, _⟩ := mem_duesQs.mp hb
    exact (hg1 b hbl hsc).1
  · intro k hk
    obtain ⟨b, hbl, hsc, hkey⟩ := hg2 k hk
    obtain ⟨_, _, hinr⟩ := hg1 b hbl hsc
    refine ⟨b, mem_duesQs.mpr ⟨hbl, hsc, ?_⟩, hkey⟩
    rw [hinr]
    simp
  · unfold strayQs
    rw [List.filter_eq_nil_iff]
    intro b hbl hcontra
    rw [Bool.and_eq_true] at hcontra
    obtain ⟨hsc, hpred⟩ := hcontra
    obtain ⟨_, hrne, hinr⟩ := hg1 b hbl hsc
    rw [hinr] at hpred
    cases hR : (step1 mss n cfg.accounting_start).1 with
    | nil => exact hrne hR
    | cons r rs =>
      rw [hR] at hpred
      simp at hpred

/-- **C1** (counterexample to the claim as stated).  Two active in-range
fee bookings with the same `(date, amount)` key, neither matching the
schedule: the first run reverses only the dictionary-selected one, so the
second run still computes a nonempty wrong set and reverses another
transaction — the second call is not write-free. -/
theorem update_liabilites_idempotent_counterexample :
    (update_liabilites 0 [⟨⟨2023, 1, 1⟩, some ⟨2023, 1, 1⟩, 30, 1⟩]
      (update_liabilites 0 [⟨⟨2023, 1, 1⟩, some ⟨2023, 1, 1⟩, 30, 1⟩]
        ⟨[⟨1, ⟨2023, 1, 1⟩, none⟩, ⟨2, ⟨2023, 1, 1⟩, none⟩],
         [⟨1, some 0, none, some Account.fees, 40⟩,
          ⟨2, some 0, none, some Account.fees, 40⟩], 3⟩
        ⟨2023, 1, 1⟩ ⟨none, 3⟩).ledger
      ⟨2023, 1, 1⟩ ⟨none, 3⟩).wrong = [(⟨2023, 1, 1⟩, 40)] ∧
    (update_liabilites 0 [⟨⟨2023, 1, 1⟩, some ⟨2023, 1, 1⟩, 30, 1⟩]
      (update_liabilites 0 [⟨⟨2023, 1, 1⟩, some ⟨2023, 1, 1⟩, 30, 1⟩]
        ⟨[⟨1, ⟨2023, 1, 1⟩, none⟩, ⟨2, ⟨2023, 1, 1⟩, none⟩],
         [⟨1, some 0, none, some Account.fees, 40⟩,
          ⟨2, some 0, none, some Account.fees, 40⟩], 3⟩
        ⟨2023, 1, 1⟩ ⟨none, 3⟩).ledger
      ⟨2023, 1, 1⟩ ⟨none, 3⟩).reversed = [1] := by
  constructor <;> rfl

/-- **C1** witness: the idempotence theorem applied to a concrete
well-formed input (a member with one closed quarterly membership over an
empty ledger). -/
theorem update_liabilites_idempotent_witness :
    update_liabilites 0 [⟨⟨2023, 1, 1⟩, some ⟨2023, 1, 1⟩, 30, 3⟩]
      (update_liabilites 0 [⟨⟨2023, 1, 1⟩, some ⟨2023, 1, 1⟩, 30, 3⟩]
        ⟨[], [], 0⟩ ⟨2023, 2, 1⟩ ⟨none, 3⟩).ledger ⟨2023, 2, 1⟩ ⟨none, 3⟩
      = ⟨[], [], [], [], [],
         (update_liabilites 0 [⟨⟨2023, 1, 1⟩, some ⟨2023, 1, 1⟩, 30, 3⟩]
           ⟨[], [], 0⟩ ⟨2023, 2, 1⟩ ⟨none, 3⟩).ledger⟩ :=
  update_liabilites_idempotent 0 [⟨⟨2023, 1, 1⟩, some ⟨2023, 1, 1⟩, 30, 3⟩]
    ⟨[], [], 0⟩ ⟨2023, 2, 1⟩ ⟨none, 3⟩
    (by decide)
    (by decide)
    (fun f h => nomatch h)
    (by decide)
    (by decide)

/-- **C2** (counterexample to the claim as stated).  A single credit
booking on fees-receivable whose transaction is reversed (with the
reversing transaction dated after the cutoff): `_calc_balance` has no
filter on the reversal state, so the booking still contributes 10, while
the claimed active-only formula yields 0. -/
theorem calc_balance_active_counterexample :
    calc_balance ⟨[⟨1, ⟨2023, 1, 1⟩, some 2⟩, ⟨2, ⟨2023, 6, 1⟩, none⟩],
        [⟨1, some 0, none, some Account.fees_receivable, 10⟩], 3⟩ 0
        (some ⟨2023, 2, 1⟩) (some ⟨2023, 2, 1⟩) none none ⟨2023, 2, 1⟩ = 10 ∧
    balanceSpecActive ⟨[⟨1, ⟨2023, 1, 1⟩, some 2⟩, ⟨2, ⟨2023, 6, 1⟩, none⟩],
        [⟨1, some 0, none, some Account.fees_receivable, 10⟩], 3⟩ 0 ⟨2023, 2, 1⟩ = 0 ∧
    calc_balance ⟨[⟨1, ⟨2023, 1, 1⟩, some 2⟩, ⟨2, ⟨2023, 6, 1⟩, none⟩],
        [⟨1, some 0, none, some Account.fees_receivable, 10⟩], 3⟩ 0
        (some ⟨2023, 2, 1⟩) (some ⟨2023, 2, 1⟩) none none ⟨2023, 2, 1⟩ ≠
      balanceSpecActive ⟨[⟨1, ⟨2023, 1, 1⟩, some 2⟩, ⟨2, ⟨2023, 6, 1⟩, none⟩],
        [⟨1, some 0, none, some Account.fees_receivable, 10⟩], 3⟩ 0 ⟨2023, 2, 1⟩ := by
  refine ⟨by decide, by decide, by decide⟩

/-- **C2** (amended).  `_calc_balance(member, cutoff=T)` equals the sum of
credit-side fees-receivable booking amounts with value date ≤ T minus the
symmetric debit-side sum, over **all** stored bookings of the member —
bookings of reversed transactions contribute exactly like active ones
(reversal is compensated only by the reversing transaction's own
bookings, and only once those fall within the cutoff). -/
theorem calc_balance_eq_specAll (l : Ledger) (m : Nat) (T n : Date) :
    calc_balance l m (some T) (some T) none none n = balanceSpecAll l m T := by
  unfold calc_balance balanceSpecAll
  simp only [Option.getD_some]
  refine congrArg₂ (fun x y : Int => x - y) ?_ ?_ <;>
  · refine congrArg List.sum (congrArg (List.map (fun b : Booking => b.amount)) ?_)
    apply List.filter_congr
    intro b _
    cases h : l.findTx b.txId with
    | none => simp [bookingDate, h]
    | some t => simp [bookingDate, h, Bool.and_assoc]

/-- **C3** (code bug).  The overlap guard of `create_balance` only checks
whether the new window's start or end lies inside an existing snapshot, so
a new window that strictly contains an existing snapshot
(`[2023-01-01, 2023-04-01]` around `[2023-02-01, 2023-03-01]`) passes the
check and is created, although the windows overlap — contradicting the
`MemberBalance` docstring ("they MUST NOT overlap per member"). -/
theorem create_balance_overlap_bug :
    intervalsOverlap ⟨2023, 1, 1⟩ ⟨2023, 4, 1⟩ ⟨2023, 2, 1⟩ ⟨2023, 3, 1⟩ ∧
    create_balance ⟨[], [], 0⟩ 0 [⟨⟨2023, 2, 1⟩, ⟨2023, 3, 1⟩, 0⟩]
        ⟨2023, 1, 1⟩ ⟨2023, 4, 1⟩ ⟨2023, 5, 1⟩ true true
      = Except.ok (some ⟨⟨2023, 1, 1⟩, ⟨2023, 4, 1⟩, 0⟩) := by
  refine ⟨by decide, by rfl⟩

/-- **C4** (counterexample to the claim as stated).  With
`liability_interval = 3` months and `future_limit` of one month at
`now = 2026-10-12`: the code computes `Dec 31 − (3 months − 1 month) −
1 year = 2025-10-31`, while the claimed
`Dec 31 − 3 months − 1 year − 1 month` gives `2025-08-30` — the
future_limit enters with the opposite sign. -/
theorem statuteCutoff_counterexample :
    statuteCutoff ⟨2026, 10, 12⟩ 3 (some ⟨0, 1, 0⟩) = ⟨2025, 10, 31⟩ ∧
    statuteCutoffClaim ⟨2026, 10, 12⟩ 3 ⟨0, 1, 0⟩ = ⟨2025, 8, 30⟩ ∧
    statuteCutoff ⟨2026, 10, 12⟩ 3 (some ⟨0, 1, 0⟩) ≠
      statuteCutoffClaim ⟨2026, 10, 12⟩ 3 ⟨0, 1, 0⟩ := by
  refine ⟨by decide, by decide, by decide⟩

/-- **C4** (amended).  `future_limit` is subtracted from the liability
interval **before** the date arithmetic, so a future_limit of `f` months
behaves exactly like shortening the configured interval by `f` months
(moving the cutoff toward the future); with no future_limit the cutoff is
`Dec 31 of now's year − liability_interval months − 1 year`, exactly as
the claim's formula reads at `f = 0`. -/
theorem statute_barred_debt_future_limit (l : Ledger) (mem : Nat) (n : Date)
    (m f0 : Nat) (h : f0 ≤ m) :
    statute_barred_debt l mem n m (some ⟨0, (f0 : Int), 0⟩)
      = statute_barred_debt l mem n (m - f0) none ∧
    statuteCutoff n m none = statuteCutoffClaim n m ⟨0, 0, 0⟩ := by
  have hcut : statuteCutoff n m (some ⟨0, (f0 : Int), 0⟩)
      = statuteCutoff n (m - f0) none := by
    unfold statuteCutoff
    simp only [Option.getD_some, Option.getD_none]
    have harg : (RelativeDelta.sub ⟨0, (m : Int), 0⟩ ⟨0, (f0 : Int), 0⟩).neg
        = (RelativeDelta.sub ⟨0, ((m - f0 : Nat) : Int), 0⟩ ⟨0, 0, 0⟩).neg := by
      show (⟨-(0 - 0), -((m : Int) - (f0 : Int)), -(0 - 0)⟩ : RelativeDelta)
          = ⟨-(0 - 0), -(((m - f0 : Nat) : Int) - 0), -(0 - 0)⟩
      simp only [RelativeDelta.mk.injEq]
      refine ⟨?_, ?_, ?_⟩ <;> first | trivial | omega
    rw [harg]
  refine ⟨?_, ?_⟩
  · unfold statute_barred_debt
    rw [hcut]
  · unfold statuteCutoff statuteCutoffClaim
    simp only [Option.getD_none]
    have h1 : (RelativeDelta.sub ⟨0, (m : Int), 0⟩ ⟨0, 0, 0⟩).neg
        = (⟨0, -(m : Int), 0⟩ : RelativeDelta) := by
      show (⟨-(0 - 0), -((m : Int) - 0), -(0 - 0)⟩ : RelativeDelta)
          = ⟨0, -(m : Int), 0⟩
      simp only [RelativeDelta.mk.injEq]
      refine ⟨?_, ?_, ?_⟩ <;> trivial
    have h2 : (⟨0, 0, 0⟩ : RelativeDelta).neg = ⟨0, 0, 0⟩ := by decide
    rw [h1, h2]
    have hv : (dateAddRD (dateAddRD ⟨n.year, 12, 31⟩ ⟨0, -(m : Int), 0⟩) ⟨-1, 0, 0⟩).Valid := by
      apply dateAddRD_valid
      have hv1 : (dateAddRD ⟨n.year, 12, 31⟩ ⟨0, -(m : Int), 0⟩).Valid := by
        apply dateAddRD_valid
        show 1 ≤ 31
        omega
      exact hv1.2.2.1
    rw [dateAddRD_zero hv]

/-- **C4** witness: the amended theorem at `now = 2026-10-12`,
`liability_interval = 3`, `future_limit = 1 month`, over an empty
ledger. -/
theorem statute_barred_debt_future_limit_witness :
    (1 : Nat) ≤ 3 ∧
    (statute_barred_debt ⟨[], [], 0⟩ 0 ⟨2026, 10, 12⟩ 3 (some ⟨0, (1 : Nat), 0⟩)
        = statute_barred_debt ⟨[], [], 0⟩ 0 ⟨2026, 10, 12⟩ (3 - 1) none ∧
      statuteCutoff ⟨2026, 10, 12⟩ 3 none = statuteCutoffClaim ⟨2026, 10, 12⟩ 3 ⟨0, 0, 0⟩) :=
  ⟨by decide,
   statute_barred_debt_future_limit ⟨[], [], 0⟩ 0 ⟨2026, 10, 12⟩ 3 1 (by decide)⟩

/-- **C6**.  For the membership `{start = 2023-01-01, end = null,
amount = 30, interval = 3}` at `now = 2023-08-01` with no accounting
start, `get_dues` uses the window `[2023-01-01, 2023-08-01]` and produces
exactly the dues `(2023-01-01, 30)`, `(2023-04-01, 30)`,
`(2023-07-01, 30)`. -/
theorem get_dues_example :
    get_dues ⟨⟨2023, 1, 1⟩, none, 30, 3⟩ ⟨2023, 8, 1⟩ none
      = ((⟨2023, 1, 1⟩, ⟨2023, 8, 1⟩),
         [(⟨2023, 1, 1⟩, 30), (⟨2023, 4, 1⟩, 30), (⟨2023, 7, 1⟩, 30)]) := by
  decide

/-- **C7**.  A membership with amount 0 is skipped entirely by the dues
schedule generation: step 1 of `update_liabilites`, and consequently the
whole reconciliation run, is unchanged when all zero-amount memberships
are removed from the input. -/
theorem update_liabilites_skips_zero_amount (m : Nat) (mss : List Membership)
    (l : Ledger) (n : Date) (cfg : Config) :
    step1 mss n cfg.accounting_start
        = step1 (mss.filter (fun ms => decide (ms.amount ≠ 0))) n cfg.accounting_start ∧
    update_liabilites m mss l n cfg
        = update_liabilites m (mss.filter (fun ms => decide (ms.amount ≠ 0))) l n cfg := by
  have hcons : ∀ (ms : Membership) (rest : List Membership) (F : Option Date),
      step1 (ms :: rest) n F = if ms.amount = 0 then step1 rest n F
        else ((get_dues ms n F).1 :: (step1 rest n F).1,
              (get_dues ms n F).2 ∪ (step1 rest n F).2) := by
    intro ms rest F
    rfl
  have h : ∀ (mss2 : List Membership) (F : Option Date),
      step1 mss2 n F = step1 (mss2.filter (fun ms => decide (ms.amount ≠ 0))) n F := by
    intro mss2 F
    induction mss2 with
    | nil => rfl
    | cons ms rest ih =>
      by_cases hz : ms.amount = 0
      · rw [List.filter_cons_of_neg (by simp [hz]), hcons, if_pos hz]
        exact ih
      · rw [List.filter_cons_of_pos (by simp [hz]), hcons, hcons, if_neg hz, if_neg hz, ih]
  refine ⟨h mss cfg.accounting_start, ?_⟩
  simp only [update_liabilites, h mss cfg.accounting_start]

/-- **C8** (counterexample to the claim as stated).  With
`membership.start = 2023-01-15`, `from = 2023-03-20` and
`now = 2023-08-10`, the code's implicit range end takes the day-of-month
of the clipped start (`20`), giving `2023-08-20`, while the claim's
formula uses `membership.start`'s day (`15`), giving `2023-08-15`. -/
theorem get_dues_range_counterexample :
    (get_dues ⟨⟨2023, 1, 15⟩, none, 30, 1⟩ ⟨2023, 8, 10⟩ (some ⟨2023, 3, 20⟩)).1
      = (⟨2023, 3, 20⟩, ⟨2023, 8, 20⟩) ∧
    duesRangeClaim ⟨⟨2023, 1, 15⟩, none, 30, 1⟩ ⟨2023, 8, 10⟩ (some ⟨2023, 3, 20⟩)
      = (⟨2023, 3, 20⟩, ⟨2023, 8, 15⟩) ∧
    (get_dues ⟨⟨2023, 1, 15⟩, none, 30, 1⟩ ⟨2023, 8, 10⟩ (some ⟨2023, 3, 20⟩)).1
      ≠ duesRangeClaim ⟨⟨2023, 1, 15⟩, none, 30, 1⟩ ⟨2023, 8, 10⟩ (some ⟨2023, 3, 20⟩) := by
  refine ⟨by decide, by decide, by decide⟩

/-- **C8** (amended).  The effective window of `get_dues` has
`range_start = max(membership.start, from)` (plain `membership.start`
without `from`), and `range_end = membership.end` when set, otherwise the
date in `now`'s year and month with the day-of-month of the **effective
range start** (not of `membership.start`), falling back to the last day
of `now`'s month when that day does not exist. -/
theorem get_dues_range_amended (ms : Membership) (n : Date) (F : Option Date) :
    (get_dues ms n F).1 = duesRangeAmended ms n F := by
  unfold get_dues duesRangeAmended dateMax
  cases F <;> cases ms.stop <;> rfl

/-- **C9**.  The reconciliation run processes its corrective writes
deterministically: the wrong and missing due lists are sorted in ascending
`(date, amount)` order, and the created postings follow the missing list
in exactly that order (the run itself is a pure function of its inputs, so
identical inputs yield identical reversal/creation sequences). -/
theorem update_liabilites_sorted (m : Nat) (mss : List Membership) (l : Ledger)
    (n : Date) (cfg : Config) :
    List.Sorted dueLE (update_liabilites m mss l n cfg).wrong ∧
    List.Sorted dueLE (update_liabilites m mss l n cfg).missing ∧
    (update_liabilites m mss l n cfg).created = (update_liabilites m mss l n cfg).missing := by
  refine ⟨?_, ?_, rfl⟩ <;> exact List.sorted_insertionSort dueLE _

/-- **C10**.  `adjust_balance` with amount 0 returns `False` and leaves
the ledger untouched; any nonzero amount returns `True`; and a negative
amount posts exactly like the corresponding positive amount with the
`from_` and `to_` accounts swapped. -/
theorem adjust_balance_spec (l : Ledger) (m : Nat) (a : Int) (from_ to_ : Account)
    (vd n : Date) :
    adjust_balance l m 0 from_ to_ vd n = (false, l) ∧
    (a ≠ 0 → (adjust_balance l m a from_ to_ vd n).1 = true) ∧
    (a < 0 → adjust_balance l m a from_ to_ vd n = adjust_balance l m (-a) to_ from_ vd n) := by
  refine ⟨?_, ?_, ?_⟩
  · unfold adjust_balance
    rw [if_pos rfl]
  · intro ha
    unfold adjust_balance
    rw [if_neg ha]
  · intro ha
    have hne : a ≠ 0 := by omega
    have hne2 : ¬(-a = 0) := by omega
    have hlt2 : ¬(-a < 0) := by omega
    unfold adjust_balance
    rw [if_neg hne, if_neg hne2]
    simp only [if_pos ha, if_neg hlt2]

/-- **C10** witness: the theorem at amount `-5` between two concrete
accounts over an empty ledger. -/
theorem adjust_balance_spec_witness :
    ((-5 : Int) ≠ 0 ∧ (-5 : Int) < 0) ∧
    (adjust_balance ⟨[], [], 0⟩ 0 (-5) Account.fees Account.donations
        ⟨2023, 1, 1⟩ ⟨2023, 1, 2⟩).1 = true ∧
    adjust_balance ⟨[], [], 0⟩ 0 (-5) Account.fees Account.donations
        ⟨2023, 1, 1⟩ ⟨2023, 1, 2⟩
      = adjust_balance ⟨[], [], 0⟩ 0 5 Account.donations Account.fees
          ⟨2023, 1, 1⟩ ⟨2023, 1, 2⟩ :=
  ⟨⟨by decide, by decide⟩,
   (adjust_balance_spec ⟨[], [], 0⟩ 0 (-5) Account.fees Account.donations
     ⟨2023, 1, 1⟩ ⟨2023, 1, 2⟩).2.1 (by decide),
   (adjust_balance_spec ⟨[], [], 0⟩ 0 (-5) Account.fees Account.donations
     ⟨2023, 1, 1⟩ ⟨2023, 1, 2⟩).2.2 (by decide)⟩

end Byro
